import Mathlib

/-!
# Verification of the rs-php-rt lexical front-end

Shallow embedding of `src/compiler/src/syntax/lex/cursor.rs`,
`src/compiler/src/syntax/lex/mod.rs`, `src/compiler/src/syntax/lex/token.rs`
and `src/compiler/src/syntax/ast/keyword.rs`.

Modelling conventions:
* A Rust `&str`/`Chars` stream is a `List Char`; `str::len()` (UTF-8 bytes) is
  `utf8Len` (sum of `Char.utf8Size`).
* `mod.rs` is written against a cursor draft in which the lookahead methods
  `first`/`second`/`nth_char` return a plain `char` with the `END_OF_FILE`
  sentinel (`'\0'`) past the end of the stream (it compares their results
  directly with characters and with `END_OF_FILE`); the `cursor.rs` draft in
  the tree returns `Result`. The embedding exposes the sentinel view
  `Cursor.nthCharS` used by `mod.rs`, mapping the end-of-stream error to the
  sentinel, which is the only reading under which `mod.rs` is well typed.
* Rust panics (`unwrap` on `None`, `unreachable!`) are explicit result
  constructors (`StrScan.panicked`, `EatRes.panicked`, `NextRes.panicked`).
* Loops are encoded with explicit fuel equal to the bound the Rust loop
  respects, so that every definition reduces in the kernel.
* `char::is_whitespace` / `is_alphabetic` / `is_alphanumeric` are modelled by
  `Char.isWhitespace` / `Char.isAlpha` / `Char.isAlphanum`; these agree on the
  ASCII inputs all claims are about (the Rust versions additionally accept
  non-ASCII Unicode classes, which no claim exercises).
-/

namespace RsPhp

/-- `cursor.rs`: `pub const END_OF_FILE: char = '\0';` -/
def END_OF_FILE : Char := Char.ofNat 0

/-- The double-quote character (written via its code point). -/
def qDouble : Char := Char.ofNat 34

/-- The single-quote character (written via its code point). -/
def qSingle : Char := Char.ofNat 39

/-- The backtick character (written via its code point). -/
def qBacktick : Char := Char.ofNat 96

/-- UTF-8 byte length of a character stream, the Lean counterpart of Rust
`str::len()` on the string holding these characters. -/
def utf8Len (l : List Char) : Nat := (l.map Char.utf8Size).sum

/-- `cursor.rs`: `struct Cursor` with fields `ilen` (byte length of the full
input), `chars` (remaining stream), `prev` (last consumed character) and
`index` (the consumed-offset counter). -/
structure Cursor where
  ilen : Nat
  chars : List Char
  prev : Char
  index : Nat
  deriving DecidableEq, Repr

namespace Cursor

/-- `Cursor::new`: full stream, `prev = END_OF_FILE`, `index = 0`. -/
def new (input : List Char) : Cursor :=
  { ilen := utf8Len input, chars := input, prev := END_OF_FILE, index := 0 }

/-- `Cursor::is_eof`: the remaining stream is empty. -/
def isEof (c : Cursor) : Bool := c.chars.isEmpty

/-- `Cursor::peek`: take the next character off the stream and record it in
`prev`; if the stream became empty by that consumption, return `none`
*without* advancing `index` (the early `if self.is_eof() { return None; }`
in the source); otherwise advance `index` and return the character. -/
def peek (c : Cursor) : Option Char × Cursor :=
  match c.chars with
  | [] => (none, c)
  | ch :: rest =>
    let c' := { c with chars := rest, prev := ch }
    if rest.isEmpty then (none, c')
    else (some ch, { c' with index := c.index + 1 })

/-- `Cursor::nth_char` as consumed by `mod.rs`: the character at relative
offset `n`, with the `END_OF_FILE` sentinel when `n` is past the end of the
remaining stream (the end-of-stream `Err` of the `cursor.rs` draft, read back
as the sentinel the `mod.rs` call sites compare against). -/
def nthCharS (c : Cursor) (n : Nat) : Char := c.chars.getD n END_OF_FILE

/-- `Cursor::get_pos`: the `index` field. -/
def getPos (c : Cursor) : Nat := c.index

/-- `Cursor::get_prev`: the `prev` field. -/
def getPrev (c : Cursor) : Char := c.prev

/-- The loop body of `Cursor::peek_inc`: `while !self.is_eof() && i <= x`
performs up to `x + 1` peeks, stopping early at end of stream. `n` is the
number of loop iterations still allowed. -/
def peekIncGo : Nat → Cursor → Cursor
  | 0, c => c
  | n + 1, c => if c.chars.isEmpty then c else peekIncGo n (peek c).2

/-- `Cursor::peek_inc(x)`: peek `x + 1` times (indices `0..=x`), stopping at
end of stream. -/
def peekInc (x : Nat) (c : Cursor) : Cursor := peekIncGo (x + 1) c

/-- `Cursor::eaten`: `ilen - chars.as_str().len()`, i.e. consumed bytes. -/
def eaten (c : Cursor) : Nat := c.ilen - utf8Len c.chars

/-- The loop of `Cursor::eat_while`, with fuel. Each iteration checks
`!is_eof && pred(first)`, then pushes `peek().unwrap_or(END_OF_FILE)` onto the
segment. The fuel is always instantiated with the remaining stream length,
which the loop can never outrun (each `peek` on a nonempty stream removes
exactly one character), so the fuel bound never cuts the loop short. -/
def eatWhileFuel (p : Char → Bool) : Nat → Cursor → List Char × Cursor
  | 0, c => ([], c)
  | n + 1, c =>
    match c.chars with
    | [] => ([], c)
    | ch :: _ =>
      if p ch then
        let pc := peek c
        let r := eatWhileFuel p n pc.2
        ((pc.1.getD END_OF_FILE) :: r.1, r.2)
      else ([], c)

/-- `Cursor::eat_while(pred)`. -/
def eatWhile (p : Char → Bool) (c : Cursor) : List Char × Cursor :=
  eatWhileFuel p c.chars.length c

/-- The loop of `Cursor::eat_while_cursor`, with fuel (see `eatWhileFuel`).
The predicate receives the cursor (read-only: the single predicate the
source ever passes, the block-comment one, has its mutating branch
unreachable — see `commentBlockPred`). -/
def eatWhileCursorFuel (p : Cursor → Char → Bool) :
    Nat → Cursor → List Char × Cursor
  | 0, c => ([], c)
  | n + 1, c =>
    match c.chars with
    | [] => ([], c)
    | ch :: _ =>
      if p c ch then
        let pc := peek c
        let r := eatWhileCursorFuel p n pc.2
        ((pc.1.getD END_OF_FILE) :: r.1, r.2)
      else ([], c)

/-- `Cursor::eat_while_cursor(pred)`. -/
def eatWhileCursor (p : Cursor → Char → Bool) (c : Cursor) :
    List Char × Cursor :=
  eatWhileCursorFuel p c.chars.length c

end Cursor

/-- `keyword.rs`: `pub const MAX_KEYWORD_LENGTH: usize = 11;` -/
def MAX_KEYWORD_LENGTH : Nat := 11

/-- `keyword.rs`: `enum Keyword`, the closed enumeration of PHP keywords. -/
inductive Keyword
  | Abstract | And | As | Break | Case | Catch | Class | Clone | Const
  | Continue | Declare | Default | Do | Else | Elseif | EndDeclare | EndFor
  | EndForEach | EndIf | EndSwitch | EndWhile | Extends | Final | Finally
  | Fn | For | ForEach | Function | Global | GoTo | If | Implements
  | Include | IncludeOnce | InstanceOf | InsteadOf | Interface | Match
  | Namespace | New | Or | Private | Protected | Public | ReadOnly
  | Require | RequireOnce | Return | Static | Switch | Throw | Trait
  | Try | Use | Var | While | Yield | From
  deriving DecidableEq, Repr

namespace Keyword

/-- `Keyword::as_str`: the canonical lowercase spelling of a keyword tag. -/
def asStr : Keyword → String
  | .Abstract => "abstract"
  | .And => "and"
  | .As => "as"
  | .Break => "break"
  | .Case => "case"
  | .Catch => "catch"
  | .Class => "class"
  | .Clone => "clone"
  | .Const => "const"
  | .Continue => "continue"
  | .Declare => "declare"
  | .Default => "default"
  | .Do => "do"
  | .Else => "else"
  | .Elseif => "elseif"
  | .EndDeclare => "enddeclare"
  | .EndFor => "endfor"
  | .EndForEach => "endforeach"
  | .EndIf => "endif"
  | .EndSwitch => "endswitch"
  | .EndWhile => "endwhile"
  | .Extends => "extends"
  | .Final => "final"
  | .Finally => "finally"
  | .Fn => "fn"
  | .For => "for"
  | .ForEach => "foreach"
  | .Function => "function"
  | .Global => "global"
  | .GoTo => "goto"
  | .If => "if"
  | .Implements => "implements"
  | .Include => "include"
  | .IncludeOnce => "include_once"
  | .InstanceOf => "instanceof"
  | .InsteadOf => "insteadof"
  | .Interface => "interface"
  | .Match => "match"
  | .Namespace => "namespace"
  | .New => "new"
  | .Or => "or"
  | .Private => "private"
  | .Protected => "protected"
  | .Public => "public"
  | .ReadOnly => "readonly"
  | .Require => "require"
  | .RequireOnce => "require_once"
  | .Return => "return"
  | .Static => "static"
  | .Switch => "switch"
  | .Throw => "throw"
  | .Trait => "trait"
  | .Try => "try"
  | .Use => "use"
  | .Var => "var"
  | .While => "while"
  | .Yield => "yield"
  | .From => "from"

/-- `Keyword::from_str` (`impl FromStr for Keyword`): the 59-armed literal
match translated arm by arm, in source order, with `Err(KeywordErr)` as
`none`. -/
def fromStr (s : String) : Option Keyword :=
  if s = "abstract" then some .Abstract
  else if s = "and" then some .And
  else if s = "as" then some .As
  else if s = "break" then some .Break
  else if s = "case" then some .Case
  else if s = "catch" then some .Catch
  else if s = "class" then some .Class
  else if s = "clone" then some .Clone
  else if s = "const" then some .Const
  else if s = "continue" then some .Continue
  else if s = "declare" then some .Declare
  else if s = "default" then some .Default
  else if s = "do" then some .Do
  else if s = "else" then some .Else
  else if s = "elseif" then some .Elseif
  else if s = "enddeclare" then some .EndDeclare
  else if s = "endfor" then some .EndFor
  else if s = "endforeach" then some .EndForEach
  else if s = "endif" then some .EndIf
  else if s = "endswitch" then some .EndSwitch
  else if s = "endwhile" then some .EndWhile
  else if s = "extends" then some .Extends
  else if s = "final" then some .Final
  else if s = "finally" then some .Finally
  else if s = "fn" then some .Fn
  else if s = "for" then some .For
  else if s = "foreach" then some .ForEach
  else if s = "function" then some .Function
  else if s = "global" then some .Global
  else if s = "goto" then some .GoTo
  else if s = "if" then some .If
  else if s = "implements" then some .Implements
  else if s = "include" then some .Include
  else if s = "include_once" then some .IncludeOnce
  else if s = "instanceof" then some .InstanceOf
  else if s = "insteadof" then some .InsteadOf
  else if s = "interface" then some .Interface
  else if s = "match" then some .Match
  else if s = "namespace" then some .Namespace
  else if s = "new" then some .New
  else if s = "or" then some .Or
  else if s = "private" then some .Private
  else if s = "protected" then some .Protected
  else if s = "public" then some .Public
  else if s = "readonly" then some .ReadOnly
  else if s = "require" then some .Require
  else if s = "require_once" then some .RequireOnce
  else if s = "return" then some .Return
  else if s = "static" then some .Static
  else if s = "switch" then some .Switch
  else if s = "throw" then some .Throw
  else if s = "trait" then some .Trait
  else if s = "try" then some .Try
  else if s = "use" then some .Use
  else if s = "var" then some .Var
  else if s = "while" then some .While
  else if s = "yield" then some .Yield
  else if s = "from" then some .From
  else none

end Keyword

/-- `reserved.rs`: `enum ReservedIdent` (magic constants and reserved
identifiers; never produced by the lexer, part of the token data model). -/
inductive ReservedIdent
  | PhpVersion | PhpMajorVersion | PhpMinorVersion | PhpReleaseVersion
  | PhpVersionId | PhpExtraVersion | PhpZts | PhpDebug | PhpMaxPathLen
  | PhpOs | PhpOsFamily | PhpSapi | PhpEol | PhpIntMax | PhpIntMin
  | PhpFloatDig | PhpFloatEpsilon | PhpFloatMin | PhpFloatMax
  | DefaultIncludePath | PearInstallDir | PearExtensionDir | PhpExtensionDir
  | PhpPrefix | PhpBinDir | PhpBinary | PhpManDir | PhpLibDir | PhpDataDir
  | PhpLocaleStateDir | PhpConfigFilePath | PhpConfigFileScanDir
  | PhpShLibSuffix | PhpFdSetSize | MagicClass | MagicDir | MagicFile
  | MagicFunction | MagicLine | MagicMethod | MagicNamespace | MagicTrait
  deriving DecidableEq, Repr

/-- `reserved.rs`: `enum ReservedCall` (language-construct calls). -/
inductive ReservedCall
  | HaltCompiler | Array | Die | Empty | Eval | Exit | IsSet | List | Unset
  deriving DecidableEq, Repr

/-- `token.rs`: `enum Numeric`. The `Float` payload is an `f64` in the
source; the lexer only ever constructs `Int(0)` (`eat_number` is stubbed), so
the payload is omitted here. `Int` (i32) and `LInt` (i128) payloads are
modelled as `Int` — the lexer only produces the literal `0`, well inside
both ranges. -/
inductive Numeric
  | Float
  | Int (n : Int)
  | LInt (n : Int)
  deriving DecidableEq, Repr

/-- `token.rs`: `enum AccessType`. -/
inductive AccessType
  | StaticMember
  | ReferenceMember
  deriving DecidableEq, Repr

/-- `token.rs`: `enum LF`. -/
inductive LineFeed
  | CRLF
  | LF
  deriving DecidableEq, Repr

/-- `token.rs`: `enum StringType`. -/
inductive StringType
  | Single
  | Double
  | HereDoc
  | NowDoc
  deriving DecidableEq, Repr

/-- `token.rs`: `enum TokenType`. The variants `Comment`, `Colon` and `Dot`
are referenced by `mod.rs` (`TokenType::Comment`, `TokenType::Colon`,
`TokenType::Dot`) but are missing from the `token.rs` draft of the enum; they
are included here since `mod.rs` — the lexer the claims are about —
constructs them. -/
inductive TokenType
  | Constant
  | Keyword (k : RsPhp.Keyword)
  | ReservedCall (c : RsPhp.ReservedCall)
  | ReservedIdent (i : RsPhp.ReservedIdent)
  | Identifier
  | NumericalLit (n : Numeric)
  | StringLit (s : StringType)
  | Operator
  | Accessor (a : AccessType)
  | Boolean
  | Whitespace
  | Comment
  | EOS
  | LF (l : LineFeed)
  | LeftBracket
  | RightBracket
  | LeftParenthesis
  | RightParenthesis
  | LeftBrace
  | RightBrace
  | Comma
  | Backslash
  | Dot
  | Colon
  | Variable
  deriving DecidableEq, Repr

/-- `token.rs`: `struct Token(TokenType, Range<usize>, Option<String>)`. The
half-open range is stored as `rangeStart`/`rangeEnd`; the optional lexeme
text as a character list. -/
structure Token where
  kind : TokenType
  rangeStart : Nat
  rangeEnd : Nat
  value : Option (List Char)
  deriving DecidableEq, Repr

/-- The predicate `mod.rs` passes to `eat_while_cursor` for block comments.
In the source, the inner `cursor.first() == '/'` branch also runs
`cursor.eat()` before returning `false`; inside `eat_while_cursor` the
argument `c` *is* `cursor.first()`, so when `c == '*'` the comparison
`cursor.first() == '/'` compares `'*'` with `'/'` and the branch (and its
`eat()` call) is unreachable — see `commentBlockPred_true`. The embedding
therefore returns `false` there without modelling the dead `eat()` call. -/
def commentBlockPred (cur : Cursor) (ch : Char) : Bool :=
  if ch = '*' then
    if cur.nthCharS 0 = '/' then false else true
  else true

/-- `mod.rs` `eat_comment`: `//` runs to the end of the line; `/* ...`
consumes via `eat_while_cursor` with `commentBlockPred`. -/
def eatComment (c : Cursor) : Option (List Char) × Cursor :=
  if c.nthCharS 0 = '/' then
    if c.nthCharS 1 = '/' then
      let r := Cursor.eatWhile (fun ch => ch ≠ '\n') c
      (some r.1, r.2)
    else if c.nthCharS 1 = '*' then
      let r := Cursor.eatWhileCursor commentBlockPred c
      (some r.1, r.2)
    else (none, c)
  else (none, c)

/-- `mod.rs` `eat_whitespace`: greedy whitespace run, `None` when empty. -/
def eatWhitespace (c : Cursor) : Option (List Char) × Cursor :=
  let r := Cursor.eatWhile Char.isWhitespace c
  if r.1.isEmpty then (none, r.2) else (some r.1, r.2)

/-- `mod.rs` `eat_identifier`: first character `_`, `a..=z` or `A..=Z`, then
a run of non-whitespace alphanumeric-or-underscore characters. -/
def eatIdentifier (c : Cursor) : Option (List Char) × Cursor :=
  let c0 := c.nthCharS 0
  if c0 = '_' ∨ ('a' ≤ c0 ∧ c0 ≤ 'z') ∨ ('A' ≤ c0 ∧ c0 ≤ 'Z') then
    let r := Cursor.eatWhile
      (fun ch => !ch.isWhitespace && (ch.isAlphanum || ch = '_')) c
    (some r.1, r.2)
  else (none, c)

/-- `mod.rs` `eat_number`: on a leading digit, consume a digit-or-dot run and
always return `Numeric::Int(0)` (the source's stub). -/
def eatNumber (c : Cursor) : Option Numeric × Cursor :=
  let c0 := c.nthCharS 0
  if '0' ≤ c0 ∧ c0 ≤ '9' then
    let r := Cursor.eatWhile (fun ch => ch.isDigit || ch = '.') c
    (some (Numeric.Int 0), r.2)
  else (none, c)

/-- The `for i in 0..MAX_KEYWORD_LENGTH` loop of `mod.rs` `eat_keyword`,
with fuel equal to the remaining iteration count. Each iteration looks at
`nth_char(i)`, bails out at the sentinel, extends the candidate segment, and
on a keyword-table hit accepts only when `nth_char(i + 1)` is whitespace,
consuming via `peek_inc(i)`. -/
def eatKeywordGo (c : Cursor) : Nat → Nat → List Char → Option Keyword × Cursor
  | 0, _, _ => (none, c)
  | fuel + 1, i, segment =>
    let ch := c.nthCharS i
    if ch = END_OF_FILE then (none, c)
    else
      let seg := segment ++ [ch]
      match Keyword.fromStr (String.mk seg) with
      | some kw =>
        if (c.nthCharS (i + 1)).isWhitespace then (some kw, c.peekInc i)
        else (none, c)
      | none => eatKeywordGo c fuel (i + 1) seg
  termination_by structural fuel => fuel

/-- `mod.rs` `eat_keyword`. -/
def eatKeyword (c : Cursor) : Option Keyword × Cursor :=
  eatKeywordGo c MAX_KEYWORD_LENGTH 0 []

/-- The single-character operator set of `mod.rs` `eat_operator`. -/
def opChars : List Char :=
  ['+', '-', '*', '/', '%', '=', '<', '>', '&', '|', '^', '~']

/-- `mod.rs` `eat_operator`: single-character operators (peek then report
`get_prev`), plus the word operators `or` (via `peek_inc(2)`, which performs
three peeks) and `and` (via `peek_inc(3)`, four peeks). -/
def eatOperator (c : Cursor) : Option (List Char) × Cursor :=
  let c0 := c.nthCharS 0
  if c0 ∈ opChars then
    let c' := (Cursor.peek c).2
    (some [c'.prev], c')
  else if c0 = 'o' then
    if c.nthCharS 1 = 'r' then (some ['o', 'r'], c.peekInc 2)
    else (none, c)
  else if c0 = 'a' then
    if c.nthCharS 1 = 'n' ∧ c.nthCharS 2 = 'd' then
      (some ['a', 'n', 'd'], c.peekInc 3)
    else (none, c)
  else (none, c)

/-- Result of the inner `for i in 0..value.len()` loop of `eat_boolean`:
either the sentinel was seen (the whole function returns `None`), or the
candidate matched (with the cursor advanced by `peek_inc(i)`), or the loop
ran out (move on to the next candidate). -/
inductive BoolScan
  | hitEof
  | matched (seg : List Char) (c : Cursor)
  | exhausted
  deriving DecidableEq, Repr

/-- The inner loop of `mod.rs` `eat_boolean` for one candidate `value`.
A mismatching character `continue`s to the next index without extending the
segment; a matching one is pushed, and when the segment equals the whole
candidate the loop accepts via `peek_inc(i)`. Fuel is the remaining
iteration count. -/
def boolLoop (c : Cursor) (value : List Char) :
    Nat → Nat → List Char → BoolScan
  | 0, _, _ => .exhausted
  | fuel + 1, i, segment =>
    if i < value.length then
      let ch := c.nthCharS i
      if ch = END_OF_FILE then .hitEof
      else if ch = value.getD i END_OF_FILE then
        let seg := segment ++ [ch]
        if seg = value then .matched seg (c.peekInc i)
        else boolLoop c value fuel (i + 1) seg
      else boolLoop c value fuel (i + 1) segment
    else .exhausted
  termination_by structural fuel => fuel

/-- `mod.rs` `eat_boolean`: first consumes (and discards) a whole alphabetic
run via `eat_while(is_alphabetic)` — the unused `let v = ...` binding in the
source — then tries `"true"` and `"false"` against the *remaining* stream
with the inner loop. `hitEof` aborts the whole function with `None`. -/
def eatBoolean (c : Cursor) : Option (List Char) × Cursor :=
  let r := Cursor.eatWhile Char.isAlpha c
  let c1 := r.2
  match boolLoop c1 ['t', 'r', 'u', 'e'] 4 0 [] with
  | .hitEof => (none, c1)
  | .matched seg c2 => (some seg, c2)
  | .exhausted =>
    match boolLoop c1 ['f', 'a', 'l', 's', 'e'] 5 0 [] with
    | .hitEof => (none, c1)
    | .matched seg c2 => (some seg, c2)
    | .exhausted => (none, c1)

/-- Result of `mod.rs` `eat_string`: declined (first char is no quote),
panicked (`peek().unwrap()` on `None`, or the `_ => unreachable!()` arm of
the variant match, hit by the backtick), or a scanned string body. -/
inductive StrScan
  | declined
  | panicked
  | strung (v : StringType) (body : List Char)
  deriving DecidableEq, Repr

/-- `mod.rs` `eat_string`: guard on a leading `"`, `'` or backtick; consume
the quote via `peek().unwrap()`; classify `"` as `Double`, `'` as `Single`,
anything else hits `unreachable!()`; then consume the body up to (not
including) the next occurrence of the opening quote. -/
def eatString (c : Cursor) : StrScan × Cursor :=
  let c0 := c.nthCharS 0
  if c0 ≠ qDouble ∧ c0 ≠ qSingle ∧ c0 ≠ qBacktick then (.declined, c)
  else
    match Cursor.peek c with
    | (none, c') => (.panicked, c')
    | (some first, c') =>
      if first = qDouble then
        let r := Cursor.eatWhile (fun ch => ch ≠ first) c'
        (.strung .Double r.1, r.2)
      else if first = qSingle then
        let r := Cursor.eatWhile (fun ch => ch ≠ first) c'
        (.strung .Single r.1, r.2)
      else (.panicked, c')

/-- `mod.rs` `eat_value_reserved`: `::` (two peeks via `peek_inc(1)`) versus
a lone `:` (one peek). -/
def eatValueReserved (c : Cursor) : Option (TokenType × List Char) × Cursor :=
  if c.nthCharS 0 = ':' then
    if c.nthCharS 1 = ':' then
      (some (.Accessor .StaticMember, [':', ':']), c.peekInc 1)
    else (some (.Colon, [':']), (Cursor.peek c).2)
  else (none, c)

/-- `mod.rs` `eat_reserved`: pure single-character lookup; the cursor is
returned unchanged (the source takes `&mut self` but never mutates — the
caller `eat` performs the consuming `peek`). -/
def eatReserved (c : Cursor) : Option TokenType × Cursor :=
  (match c.nthCharS 0 with
   | '[' => some TokenType.LeftBracket
   | ']' => some TokenType.RightBracket
   | '(' => some TokenType.LeftParenthesis
   | ')' => some TokenType.RightParenthesis
   | '{' => some TokenType.LeftBrace
   | '}' => some TokenType.RightBrace
   | ';' => some TokenType.EOS
   | ',' => some TokenType.Comma
   | '\\' => some TokenType.Backslash
   | '.' => some TokenType.Dot
   | '$' => some TokenType.Variable
   | _ => none, c)

/-- Result of `mod.rs` `Cursor::eat` (`Option<Token>`, plus the explicit
panic outcome propagated from `eat_string`). -/
inductive EatRes
  | tok (t : Token)
  | noTok
  | panicked
  deriving DecidableEq, Repr

/-- `mod.rs` `Cursor::eat`: the recognizer cascade. `start_pos` is read
once up front; each recognizer is run on the cursor state left behind by the
previous one (they take `&mut self`, so a recognizer that consumes and still
declines — `eat_boolean` — hands the shortened stream to its successors).
On the string branch the extra `self.peek()` after `eat_string` consumes the
closing quote; on the reserved branch `self.peek()` consumes the matched
character; the fallthrough consumes one character and returns no token. -/
def eat (c : Cursor) : EatRes × Cursor :=
  let startPos := c.index
  let w := eatWhitespace c
  match w.1 with
  | some s => (.tok ⟨.Whitespace, startPos, w.2.index, some s⟩, w.2)
  | none =>
  let c1 := w.2
  let cm := eatComment c1
  match cm.1 with
  | some s => (.tok ⟨.Comment, startPos, cm.2.index, some s⟩, cm.2)
  | none =>
  let c2 := cm.2
  let op := eatOperator c2
  match op.1 with
  | some s => (.tok ⟨.Operator, startPos, op.2.index, some s⟩, op.2)
  | none =>
  let c3 := op.2
  let kw := eatKeyword c3
  match kw.1 with
  | some k => (.tok ⟨.Keyword k, startPos, kw.2.index, none⟩, kw.2)
  | none =>
  let c4 := kw.2
  let bl := eatBoolean c4
  match bl.1 with
  | some s => (.tok ⟨.Boolean, startPos, bl.2.index, some s⟩, bl.2)
  | none =>
  let c5 := bl.2
  let idn := eatIdentifier c5
  match idn.1 with
  | some s => (.tok ⟨.Identifier, startPos, idn.2.index, some s⟩, idn.2)
  | none =>
  let c6 := idn.2
  let num := eatNumber c6
  match num.1 with
  | some n => (.tok ⟨.NumericalLit n, startPos, num.2.index, none⟩, num.2)
  | none =>
  let c7 := num.2
  match eatString c7 with
  | (.panicked, c8) => (.panicked, c8)
  | (.strung v s, c8) =>
    let c9 := (Cursor.peek c8).2
    (.tok ⟨.StringLit v, startPos, c9.index, some s⟩, c9)
  | (.declined, c8) =>
  let vr := eatValueReserved c8
  match vr.1 with
  | some ts => (.tok ⟨ts.1, startPos, vr.2.index, some ts.2⟩, vr.2)
  | none =>
  let c9 := vr.2
  let rs := eatReserved c9
  match rs.1 with
  | some tt =>
    let c10 := (Cursor.peek rs.2).2
    (.tok ⟨tt, startPos, c10.index, none⟩, c10)
  | none =>
  (.noTok, (Cursor.peek rs.2).2)

/-- Result of `mod.rs` `Lexer::next` (`Result<Option<Token>, Error>`); the
`err` constructor is the `Err(...)` variant of the Rust result type, and
`panicked` the propagated panic. -/
inductive NextRes
  | ok (t : Option Token)
  | err
  | panicked
  deriving DecidableEq, Repr

/-- `mod.rs` `Lexer::next`: wrap `eat`'s outcome in `Ok` (the source never
constructs `Err`); a panic propagates. -/
def lexerNext (c : Cursor) : NextRes × Cursor :=
  match eat c with
  | (.tok t, c') => (.ok (some t), c')
  | (.noTok, c') => (.ok none, c')
  | (.panicked, c') => (.panicked, c')

/-- `n + 1` successive calls to `Lexer::next` starting from cursor `c`,
returning the last call's result and the final cursor. -/
def runNext : Nat → Cursor → NextRes × Cursor
  | 0, c => lexerNext c
  | n + 1, c => runNext n (lexerNext c).2

/-! ## Theorems -/

/-- Round-trip half of the keyword table bijection. -/
theorem Keyword.fromStr_asStr (k : Keyword) :
    Keyword.fromStr (Keyword.asStr k) = some k := by
  cases k <;> decide

/-- Soundness half: `from_str` only accepts the canonical spelling of the
tag it returns. -/
theorem Keyword.fromStr_sound : ∀ (s : String) (k : Keyword),
    Keyword.fromStr s = some k → s = Keyword.asStr k := by
  intro s k h
  unfold Keyword.fromStr at h
  by_cases h1 : s = "abstract"
  · rw [if_pos h1] at h
    obtain rfl := Option.some.inj h
    exact h1
  rw [if_neg h1] at h
  by_cases h2 : s = "and"
  · rw [if_pos h2] at h
    obtain rfl := Option.some.inj h
    exact h2
  rw [if_neg h2] at h
  by_cases h3 : s = "as"
  · rw [if_pos h3] at h
    obtain rfl := Option.some.inj h
    exact h3
  rw [if_neg h3] at h
  by_cases h4 : s = "break"
  · rw [if_pos h4] at h
    obtain rfl := Option.some.inj h
    exact h4
  rw [if_neg h4] at h
  by_cases h5 : s = "case"
  · rw [if_pos h5] at h
    obtain rfl := Option.some.inj h
    exact h5
  rw [if_neg h5] at h
  by_cases h6 : s = "catch"
  · rw [if_pos h6] at h
    obtain rfl := Option.some.inj h
    exact h6
  rw [if_neg h6] at h
  by_cases h7 : s = "class"
  · rw [if_pos h7] at h
    obtain rfl := Option.some.inj h
    exact h7
  rw [if_neg h7] at h
  by_cases h8 : s = "clone"
  · rw [if_pos h8] at h
    obtain rfl := Option.some.inj h
    exact h8
  rw [if_neg h8] at h
  by_cases h9 : s = "const"
  · rw [if_pos h9] at h
    obtain rfl := Option.some.inj h
    exact h9
  rw [if_neg h9] at h
  by_cases h10 : s = "continue"
  · rw [if_pos h10] at h
    obtain rfl := Option.some.inj h
    exact h10
  rw [if_neg h10] at h
  by_cases h11 : s = "declare"
  · rw [if_pos h11] at h
    obtain rfl := Option.some.inj h
    exact h11
  rw [if_neg h11] at h
  by_cases h12 : s = "default"
  · rw [if_pos h12] at h
    obtain rfl := Option.some.inj h
    exact h12
  rw [if_neg h12] at h
  by_cases h13 : s = "do"
  · rw [if_pos h13] at h
    obtain rfl := Option.some.inj h
    exact h13
  rw [if_neg h13] at h
  by_cases h14 : s = "else"
  · rw [if_pos h14] at h
    obtain rfl := Option.some.inj h
    exact h14
  rw [if_neg h14] at h
  by_cases h15 : s = "elseif"
  · rw [if_pos h15] at h
    obtain rfl := Option.some.inj h
    exact h15
  rw [if_neg h15] at h
  by_cases h16 : s = "enddeclare"
  · rw [if_pos h16] at h
    obtain rfl := Option.some.inj h
    exact h16
  rw [if_neg h16] at h
  by_cases h17 : s = "endfor"
  · rw [if_pos h17] at h
    obtain rfl := Option.some.inj h
    exact h17
  rw [if_neg h17] at h
  by_cases h18 : s = "endforeach"
  · rw [if_pos h18] at h
    obtain rfl := Option.some.inj h
    exact h18
  rw [if_neg h18] at h
  by_cases h19 : s = "endif"
  · rw [if_pos h19] at h
    obtain rfl := Option.some.inj h
    exact h19
  rw [if_neg h19] at h
  by_cases h20 : s = "endswitch"
  · rw [if_pos h20] at h
    obtain rfl := Option.some.inj h
    exact h20
  rw [if_neg h20] at h
  by_cases h21 : s = "endwhile"
  · rw [if_pos h21] at h
    obtain rfl := Option.some.inj h
    exact h21
  rw [if_neg h21] at h
  by_cases h22 : s = "extends"
  · rw [if_pos h22] at h
    obtain rfl := Option.some.inj h
    exact h22
  rw [if_neg h22] at h
  by_cases h23 : s = "final"
  · rw [if_pos h23] at h
    obtain rfl := Option.some.inj h
    exact h23
  rw [if_neg h23] at h
  by_cases h24 : s = "finally"
  · rw [if_pos h24] at h
    obtain rfl := Option.some.inj h
    exact h24
  rw [if_neg h24] at h
  by_cases h25 : s = "fn"
  · rw [if_pos h25] at h
    obtain rfl := Option.some.inj h
    exact h25
  rw [if_neg h25] at h
  by_cases h26 : s = "for"
  · rw [if_pos h26] at h
    obtain rfl := Option.some.inj h
    exact h26
  rw [if_neg h26] at h
  by_cases h27 : s = "foreach"
  · rw [if_pos h27] at h
    obtain rfl := Option.some.inj h
    exact h27
  rw [if_neg h27] at h
  by_cases h28 : s = "function"
  · rw [if_pos h28] at h
    obtain rfl := Option.some.inj h
    exact h28
  rw [if_neg h28] at h
  by_cases h29 : s = "global"
  · rw [if_pos h29] at h
    obtain rfl := Option.some.inj h
    exact h29
  rw [if_neg h29] at h
  by_cases h30 : s = "goto"
  · rw [if_pos h30] at h
    obtain rfl := Option.some.inj h
    exact h30
  rw [if_neg h30] at h
  by_cases h31 : s = "if"
  · rw [if_pos h31] at h
    obtain rfl := Option.some.inj h
    exact h31
  rw [if_neg h31] at h
  by_cases h32 : s = "implements"
  · rw [if_pos h32] at h
    obtain rfl := Option.some.inj h
    exact h32
  rw [if_neg h32] at h
  by_cases h33 : s = "include"
  · rw [if_pos h33] at h
    obtain rfl := Option.some.inj h
    exact h33
  rw [if_neg h33] at h
  by_cases h34 : s = "include_once"
  · rw [if_pos h34] at h
    obtain rfl := Option.some.inj h
    exact h34
  rw [if_neg h34] at h
  by_cases h35 : s = "instanceof"
  · rw [if_pos h35] at h
    obtain rfl := Option.some.inj h
    exact h35
  rw [if_neg h35] at h
  by_cases h36 : s = "insteadof"
  · rw [if_pos h36] at h
    obtain rfl := Option.some.inj h
    exact h36
  rw [if_neg h36] at h
  by_cases h37 : s = "interface"
  · rw [if_pos h37] at h
    obtain rfl := Option.some.inj h
    exact h37
  rw [if_neg h37] at h
  by_cases h38 : s = "match"
  · rw [if_pos h38] at h
    obtain rfl := Option.some.inj h
    exact h38
  rw [if_neg h38] at h
  by_cases h39 : s = "namespace"
  · rw [if_pos h39] at h
    obtain rfl := Option.some.inj h
    exact h39
  rw [if_neg h39] at h
  by_cases h40 : s = "new"
  · rw [if_pos h40] at h
    obtain rfl := Option.some.inj h
    exact h40
  rw [if_neg h40] at h
  by_cases h41 : s = "or"
  · rw [if_pos h41] at h
    obtain rfl := Option.some.inj h
    exact h41
  rw [if_neg h41] at h
  by_cases h42 : s = "private"
  · rw [if_pos h42] at h
    obtain rfl := Option.some.inj h
    exact h42
  rw [if_neg h42] at h
  by_cases h43 : s = "protected"
  · rw [if_pos h43] at h
    obtain rfl := Option.some.inj h
    exact h43
  rw [if_neg h43] at h
  by_cases h44 : s = "public"
  · rw [if_pos h44] at h
    obtain rfl := Option.some.inj h
    exact h44
  rw [if_neg h44] at h
  by_cases h45 : s = "readonly"
  · rw [if_pos h45] at h
    obtain rfl := Option.some.inj h
    exact h45
  rw [if_neg h45] at h
  by_cases h46 : s = "require"
  · rw [if_pos h46] at h
    obtain rfl := Option.some.inj h
    exact h46
  rw [if_neg h46] at h
  by_cases h47 : s = "require_once"
  · rw [if_pos h47] at h
    obtain rfl := Option.some.inj h
    exact h47
  rw [if_neg h47] at h
  by_cases h48 : s = "return"
  · rw [if_pos h48] at h
    obtain rfl := Option.some.inj h
    exact h48
  rw [if_neg h48] at h
  by_cases h49 : s = "static"
  · rw [if_pos h49] at h
    obtain rfl := Option.some.inj h
    exact h49
  rw [if_neg h49] at h
  by_cases h50 : s = "switch"
  · rw [if_pos h50] at h
    obtain rfl := Option.some.inj h
    exact h50
  rw [if_neg h50] at h
  by_cases h51 : s = "throw"
  · rw [if_pos h51] at h
    obtain rfl := Option.some.inj h
    exact h51
  rw [if_neg h51] at h
  by_cases h52 : s = "trait"
  · rw [if_pos h52] at h
    obtain rfl := Option.some.inj h
    exact h52
  rw [if_neg h52] at h
  by_cases h53 : s = "try"
  · rw [if_pos h53] at h
    obtain rfl := Option.some.inj h
    exact h53
  rw [if_neg h53] at h
  by_cases h54 : s = "use"
  · rw [if_pos h54] at h
    obtain rfl := Option.some.inj h
    exact h54
  rw [if_neg h54] at h
  by_cases h55 : s = "var"
  · rw [if_pos h55] at h
    obtain rfl := Option.some.inj h
    exact h55
  rw [if_neg h55] at h
  by_cases h56 : s = "while"
  · rw [if_pos h56] at h
    obtain rfl := Option.some.inj h
    exact h56
  rw [if_neg h56] at h
  by_cases h57 : s = "yield"
  · rw [if_pos h57] at h
    obtain rfl := Option.some.inj h
    exact h57
  rw [if_neg h57] at h
  by_cases h58 : s = "from"
  · rw [if_pos h58] at h
    obtain rfl := Option.some.inj h
    exact h58
  rw [if_neg h58] at h
  exact Option.noConfusion h

/-- C9: the Keyword tag-to-spelling mapping is a bijection: `from_str`
inverts `as_str` on every tag, no two distinct tags share a spelling, and
every string `from_str` accepts is exactly the `as_str` spelling of the tag
it returns. -/
theorem keyword_bijection :
    (∀ k : Keyword, Keyword.fromStr (Keyword.asStr k) = some k) ∧
    (∀ k1 k2 : Keyword, Keyword.asStr k1 = Keyword.asStr k2 → k1 = k2) ∧
    (∀ (s : String) (k : Keyword),
      Keyword.fromStr s = some k → s = Keyword.asStr k) := by
  refine ⟨Keyword.fromStr_asStr, ?_, Keyword.fromStr_sound⟩
  intro k1 k2 hspell
  have h1 := Keyword.fromStr_asStr k1
  rw [hspell, Keyword.fromStr_asStr k2] at h1
  exact (Option.some.inj h1).symm

/-- C1 counterexample: on a cursor with exactly one character remaining
(`"a"`), `peek()` returns `None` even though a character remains, and does
not advance the consumed offset — refuting "for every cursor with at least
one character remaining, peek() returns Some ... advances consumed_offset by
exactly one" and "returns None only when no characters remain". -/
theorem peek_one_left_cex :
    (Cursor.new ['a']).chars.length = 1 ∧
    (Cursor.peek (Cursor.new ['a'])).1 = none ∧
    (Cursor.peek (Cursor.new ['a'])).2.index = 0 := by
  decide

/-- C1 (amended): with a character `ch` at the head of the stream, `peek`
always records `ch` as `last_consumed` and removes it from the stream; it
returns `some ch` and advances `index` by one exactly when at least one
further character follows; when `ch` is the last character it returns `none`
and leaves `index` unchanged. -/
theorem peek_spec (c : Cursor) (ch : Char) (rest : List Char)
    (h : c.chars = ch :: rest) :
    (Cursor.peek c).2.prev = ch ∧ (Cursor.peek c).2.chars = rest ∧
    (rest ≠ [] → (Cursor.peek c).1 = some ch ∧
      (Cursor.peek c).2.index = c.index + 1) ∧
    (rest = [] → (Cursor.peek c).1 = none ∧
      (Cursor.peek c).2.index = c.index) := by
  cases rest with
  | nil => simp [Cursor.peek, h]
  | cons a t => simp [Cursor.peek, h]

/-- Witness for `peek_spec` at the concrete cursor over `"ab"`. -/
theorem peek_spec_witness :
    (Cursor.peek (Cursor.new ['a', 'b'])).1 = some 'a' ∧
    (Cursor.peek (Cursor.new ['a', 'b'])).2.index = 1 := by
  have h := peek_spec (Cursor.new ['a', 'b']) 'a' ['b'] (by decide)
  have h2 := h.2.2.1 (by decide)
  exact ⟨h2.1, h2.2⟩

/-- C2 counterexample: after one `peek` on the one-character input `"a"`,
`consumed_offset` (`index`, `get_pos`) is `0` while
`len(buffer) - len(remaining)` (= `eaten()`) is `1` — refuting the claimed
invariant for this reachable cursor state. -/
theorem consumed_offset_cex :
    (Cursor.peek (Cursor.new ['a'])).2.index = 0 ∧
    Cursor.eaten (Cursor.peek (Cursor.new ['a'])).2 = 1 ∧
    (Cursor.new ['a']).chars.length -
      (Cursor.peek (Cursor.new ['a'])).2.chars.length = 1 := by
  decide

/-- C3 counterexample: `eat_boolean` on the input `"foo "` returns `None`
(declines) yet consumes the three characters `foo` — the cursor is not left
as it was before the attempt. -/
theorem eat_boolean_decline_cex :
    (eatBoolean (Cursor.new ['f', 'o', 'o', ' '])).1 = none ∧
    (eatBoolean (Cursor.new ['f', 'o', 'o', ' '])).2.chars = [' '] ∧
    (Cursor.new ['f', 'o', 'o', ' ']).chars = ['f', 'o', 'o', ' '] := by
  decide

/-- C4: on input `"forest "` the very first `Lexer::next` call returns
`Ok(None)` (reported clean end of stream) and no Identifier token is ever
produced — `eat_boolean`'s leading `eat_while(is_alphabetic)` consumes
`forest` before declining, after which no recognizer can match. The same
happens for `"iffoo "`. This contradicts the specified behaviour (one
Identifier token carrying the whole word). -/
theorem keyword_boundary_word_lost :
    (lexerNext (Cursor.new "forest ".toList)).1 = NextRes.ok none ∧
    (lexerNext (Cursor.new "iffoo ".toList)).1 = NextRes.ok none := by
  decide

/-- The mutating branch of the source's block-comment predicate (its
`cursor.eat()` call guarded by `c == '*' && cursor.first() == '/'`) is
unreachable: inside `eat_while_cursor` the scanned character `ch` *is*
`cursor.first()`, so the guard would need `'*' = '/'`. Consequently the
predicate is constantly `true` on the character at the head of the stream. -/
theorem commentBlockPred_true (cur : Cursor) (ch : Char)
    (h : cur.nthCharS 0 = ch) : commentBlockPred cur ch = true := by
  unfold commentBlockPred
  split_ifs with h1 h2
  · rw [h1] at h
    rw [h] at h2
    exact absurd h2 (by decide)
  · rfl
  · rfl

/-- C5: on input `"/*x*/y"` the block-comment token does not stop at the
first `*/`: the whole input, `y` included, is consumed (the predicate never
sees the closing pair because it compares the scanned `*` with itself), the
recorded comment text is `/*x*/` with the final consumed character replaced
by the `'\0'` sentinel, and the next call reports end of stream instead of
lexing `y`. -/
theorem block_comment_overrun :
    (lexerNext (Cursor.new ['/', '*', 'x', '*', '/', 'y'])).1 =
      NextRes.ok (some ⟨.Comment, 0, 5,
        some ['/', '*', 'x', '*', '/', END_OF_FILE]⟩) ∧
    (lexerNext (Cursor.new ['/', '*', 'x', '*', '/', 'y'])).2.chars = [] ∧
    (lexerNext (lexerNext (Cursor.new ['/', '*', 'x', '*', '/', 'y'])).2).1 =
      NextRes.ok none := by
  decide

/-- C6 counterexample: lexing `"'abc'"` does *not* produce the token claimed
(StringLit(Single), text `abc`, span `[0, 5)`): the actual span is
`[0, 4)`. -/
theorem string_roundtrip_cex :
    (lexerNext (Cursor.new [qSingle, 'a', 'b', 'c', qSingle])).1 ≠
      NextRes.ok (some ⟨.StringLit .Single, 0, 5, some ['a', 'b', 'c']⟩) := by
  decide

/-- C6 (amended): lexing `"'abc'"` produces exactly one StringLit(Single)
token whose text is `abc` (quotes excluded) and whose span is `[0, 4)`: the
closing quote is consumed, but consuming the final character of the input
does not advance the cursor position, so the span ends at 4, not 5. -/
theorem string_roundtrip_amended :
    (lexerNext (Cursor.new [qSingle, 'a', 'b', 'c', qSingle])).1 =
      NextRes.ok (some ⟨.StringLit .Single, 0, 4, some ['a', 'b', 'c']⟩) ∧
    (lexerNext (lexerNext (Cursor.new [qSingle, 'a', 'b', 'c', qSingle])).2).1 =
      NextRes.ok none := by
  decide

/-- C7: `Lexer::next` never returns the `Err` variant — the source wraps
`eat`'s option in `Ok` unconditionally — and on the malformed input `"@"`
(a character no recognizer matches) it returns `Ok(None)`, reporting a clean
end of stream instead of a lexical error. -/
theorem lexer_next_never_err :
    (∀ c : Cursor, (lexerNext c).1 ≠ NextRes.err) ∧
    (lexerNext (Cursor.new ['@'])).1 = NextRes.ok none := by
  constructor
  · intro c
    unfold lexerNext
    cases h : eat c with
    | mk r c2 => cases r <;> simp
  · decide

/-- C8: on the backtick-quoted input `` `a` `` the string recognizer reaches
the `_ => unreachable!()` arm of the variant classification (the guard
admits the backtick, the match does not), so lexing panics instead of
producing a StringLit token. -/
theorem backtick_string_panics :
    (lexerNext (Cursor.new [qBacktick, 'a', qBacktick])).1 =
      NextRes.panicked := by
  decide

/-- C10 counterexample: for the length-1 input `"+"` the first `Lexer::next`
call returns a token, not `Ok(None)`, so `Ok(None)` is not reached within
`len(input)` = 1 calls; and for the length-1 input `"'"` the first call
panics (`peek().unwrap()` on `None`), so `Ok(None)` is never reached. -/
theorem next_bound_cex :
    (runNext 0 (Cursor.new ['+'])).1 =
      NextRes.ok (some ⟨.Operator, 0, 0, some ['+']⟩) ∧
    (runNext 0 (Cursor.new [qSingle])).1 = NextRes.panicked := by
  decide

/-- An `eat_while` run that produced the empty segment executed no loop
iteration, so the cursor is unchanged. -/
theorem Cursor.eatWhileFuel_nil {p : Char → Bool} {n : Nat} {c : Cursor}
    (h : (Cursor.eatWhileFuel p n c).1 = []) :
    (Cursor.eatWhileFuel p n c).2 = c := by
  cases n with
  | zero => rfl
  | succ n =>
    cases hc : c.chars with
    | nil =>
      unfold Cursor.eatWhileFuel
      simp [hc]
    | cons ch rest =>
      by_cases hp : p ch
      · unfold Cursor.eatWhileFuel at h
        simp [hc, hp] at h
      · unfold Cursor.eatWhileFuel
        simp [hc, hp]

/-- `Cursor.eatWhile` form of `Cursor.eatWhileFuel_nil`. -/
theorem Cursor.eatWhile_nil {p : Char → Bool} {c : Cursor}
    (h : (Cursor.eatWhile p c).1 = []) : (Cursor.eatWhile p c).2 = c :=
  Cursor.eatWhileFuel_nil h

/-- Every `return None` exit of the `eat_keyword` loop hands back the cursor
it started from (the loop reads only through `nth_char`; `peek_inc` runs
only on the accepting exit). -/
theorem eatKeywordGo_none {c : Cursor} :
    ∀ (fuel i : Nat) (seg : List Char),
      (eatKeywordGo c fuel i seg).1 = none →
        (eatKeywordGo c fuel i seg).2 = c := by
  intro fuel
  induction fuel with
  | zero => intro i seg _; rfl
  | succ fuel ih =>
    intro i seg h
    by_cases h0 : c.nthCharS i = END_OF_FILE
    · simp [eatKeywordGo, h0]
    · cases hk : Keyword.fromStr (String.mk (seg ++ [c.nthCharS i])) with
      | none =>
        simp only [eatKeywordGo, h0, if_false, hk] at h ⊢
        exact ih (i + 1) _ h
      | some kw =>
        by_cases hw : (c.nthCharS (i + 1)).isWhitespace
        · simp [eatKeywordGo, h0, hk, hw] at h
        · simp [eatKeywordGo, h0, hk, hw]

/-- `eat_whitespace` declines only with an unchanged cursor. -/
theorem eatWhitespace_decline (c : Cursor)
    (h : (eatWhitespace c).1 = none) : (eatWhitespace c).2 = c := by
  by_cases he : (Cursor.eatWhile Char.isWhitespace c).1.isEmpty
  · have hz := Cursor.eatWhile_nil (List.isEmpty_iff.mp he)
    simp [eatWhitespace, he, hz]
  · simp [eatWhitespace, he] at h

/-- `eat_comment` declines only with an unchanged cursor. -/
theorem eatComment_decline (c : Cursor)
    (h : (eatComment c).1 = none) : (eatComment c).2 = c := by
  by_cases h0 : c.nthCharS 0 = '/'
  · by_cases h1 : c.nthCharS 1 = '/'
    · simp [eatComment, h0, h1] at h
    · by_cases h2 : c.nthCharS 1 = '*'
      · simp [eatComment, h0, h1, h2] at h
      · simp [eatComment, h0, h1, h2]
  · simp [eatComment, h0]

/-- `eat_operator` declines only with an unchanged cursor. -/
theorem eatOperator_decline (c : Cursor)
    (h : (eatOperator c).1 = none) : (eatOperator c).2 = c := by
  by_cases m0 : c.nthCharS 0 ∈ opChars
  · simp [eatOperator, m0] at h
  · by_cases o0 : c.nthCharS 0 = 'o'
    · by_cases o1 : c.nthCharS 1 = 'r'
      · simp [eatOperator, opChars, m0, o0, o1] at h
      · simp [eatOperator, opChars, m0, o0, o1]
    · by_cases a0 : c.nthCharS 0 = 'a'
      · by_cases a1 : c.nthCharS 1 = 'n' ∧ c.nthCharS 2 = 'd'
        · simp [eatOperator, opChars, m0, o0, a0, a1] at h
        · simp [eatOperator, opChars, m0, o0, a0, a1]
      · simp [eatOperator, m0, o0, a0]

/-- `eat_keyword` declines only with an unchanged cursor. -/
theorem eatKeyword_decline (c : Cursor)
    (h : (eatKeyword c).1 = none) : (eatKeyword c).2 = c :=
  eatKeywordGo_none MAX_KEYWORD_LENGTH 0 [] h

/-- `eat_identifier` declines only with an unchanged cursor. -/
theorem eatIdentifier_decline (c : Cursor)
    (h : (eatIdentifier c).1 = none) : (eatIdentifier c).2 = c := by
  by_cases g : c.nthCharS 0 = '_' ∨ ('a' ≤ c.nthCharS 0 ∧ c.nthCharS 0 ≤ 'z') ∨
      ('A' ≤ c.nthCharS 0 ∧ c.nthCharS 0 ≤ 'Z')
  · simp [eatIdentifier, g] at h
  · simp [eatIdentifier, g]

/-- `eat_number` declines only with an unchanged cursor. -/
theorem eatNumber_decline (c : Cursor)
    (h : (eatNumber c).1 = none) : (eatNumber c).2 = c := by
  by_cases g : '0' ≤ c.nthCharS 0 ∧ c.nthCharS 0 ≤ '9'
  · simp [eatNumber, g] at h
  · simp [eatNumber, g]

/-- `eat_string` declines only with an unchanged cursor (the consuming and
panicking paths never produce `declined`). -/
theorem eatString_decline (c : Cursor)
    (h : (eatString c).1 = .declined) : (eatString c).2 = c := by
  by_cases g : c.nthCharS 0 ≠ qDouble ∧ c.nthCharS 0 ≠ qSingle ∧
      c.nthCharS 0 ≠ qBacktick
  · simp [eatString, g]
  · rcases hp : Cursor.peek c with ⟨o, c2⟩
    cases o with
    | none => simp [eatString, g, hp] at h
    | some ch =>
      by_cases hd : ch = qDouble
      · simp [eatString, g, hp, hd] at h
      · by_cases hs : ch = qSingle
        · simp [eatString, g, hp, hd, hs,
                show qSingle ≠ qDouble by decide] at h
        · simp [eatString, g, hp, hd, hs] at h

/-- `eat_value_reserved` declines only with an unchanged cursor. -/
theorem eatValueReserved_decline (c : Cursor)
    (h : (eatValueReserved c).1 = none) : (eatValueReserved c).2 = c := by
  by_cases h0 : c.nthCharS 0 = ':'
  · by_cases h1 : c.nthCharS 1 = ':' <;> simp [eatValueReserved, h0, h1] at h
  · simp [eatValueReserved, h0]

/-- C3 (amended): every recognizer in the pipeline other than `eat_boolean`
either consumes and returns a match or declines with the cursor exactly as
it was before the attempt — in particular its consumed character count is
unchanged. `eat_boolean` is the exception: it can consume an alphabetic run
and still decline (`eat_boolean_decline_cex`). -/
theorem recognizers_decline_unchanged (c : Cursor) :
    ((eatWhitespace c).1 = none → (eatWhitespace c).2 = c) ∧
    ((eatComment c).1 = none → (eatComment c).2 = c) ∧
    ((eatOperator c).1 = none → (eatOperator c).2 = c) ∧
    ((eatKeyword c).1 = none → (eatKeyword c).2 = c) ∧
    ((eatIdentifier c).1 = none → (eatIdentifier c).2 = c) ∧
    ((eatNumber c).1 = none → (eatNumber c).2 = c) ∧
    ((eatString c).1 = .declined → (eatString c).2 = c) ∧
    ((eatValueReserved c).1 = none → (eatValueReserved c).2 = c) ∧
    ((eatReserved c).1 = none → (eatReserved c).2 = c) :=
  ⟨eatWhitespace_decline c, eatComment_decline c, eatOperator_decline c,
   eatKeyword_decline c, eatIdentifier_decline c, eatNumber_decline c,
   eatString_decline c, eatValueReserved_decline c, fun _ => rfl⟩

/-- Witness for `recognizers_decline_unchanged`: the comment recognizer on
the concrete input `"/a"` declines with the cursor unchanged. -/
theorem recognizers_decline_unchanged_witness :
    (eatComment (Cursor.new ['/', 'a'])).2 = Cursor.new ['/', 'a'] :=
  (recognizers_decline_unchanged (Cursor.new ['/', 'a'])).2.1 (by decide)

/-- `utf8Len` is additive under concatenation. -/
theorem utf8Len_append (a b : List Char) :
    utf8Len (a ++ b) = utf8Len a + utf8Len b := by
  simp [utf8Len]

/-- Cursor states reachable from `Cursor::new(input)` by any sequence of the
mutating cursor operations (`peek`, `peek_inc`, `eat_while`,
`eat_while_cursor`, with arbitrary predicates); the lookahead operations do
not change the state and need no constructor. -/
inductive Reachable (input : List Char) : Cursor → Prop
  | new : Reachable input (Cursor.new input)
  | peek {c : Cursor} : Reachable input c → Reachable input (Cursor.peek c).2
  | peekInc {c : Cursor} (x : Nat) :
      Reachable input c → Reachable input (Cursor.peekInc x c)
  | eatWhile {c : Cursor} (p : Char → Bool) :
      Reachable input c → Reachable input (Cursor.eatWhile p c).2
  | eatWhileCursor {c : Cursor} (p : Cursor → Char → Bool) :
      Reachable input c → Reachable input (Cursor.eatWhileCursor p c).2

/-- The invariant that actually holds of reachable cursor states: `ilen`
remembers the byte length of the full input, the remaining stream is a
suffix of the input, and `index` counts the consumed *characters* — except
that once the stream has been exhausted `index` is one less (consuming the
final character does not advance it, see `Cursor.peek`). -/
def CursorInv (input : List Char) (c : Cursor) : Prop :=
  c.ilen = utf8Len input ∧ (∃ pre, input = pre ++ c.chars) ∧
  (c.chars ≠ [] → c.index = input.length - c.chars.length) ∧
  (c.chars = [] → c.index = input.length - 1)

/-- `peek` preserves the cursor invariant. -/
theorem CursorInv.peek {input : List Char} {c : Cursor}
    (h : CursorInv input c) : CursorInv input (Cursor.peek c).2 := by
  obtain ⟨h1, ⟨pre, hpre⟩, h3, h4⟩ := h
  cases hc : c.chars with
  | nil =>
    simpa [Cursor.peek, hc] using ⟨h1, ⟨pre, hpre⟩, h3, h4⟩
  | cons ch rest =>
    have hlen : input.length = pre.length + 1 + rest.length := by
      simp [hpre, hc]
      omega
    have hidx : c.index = input.length - (rest.length + 1) := by
      have := h3 (by simp [hc])
      simpa [hc] using this
    cases rest with
    | nil =>
      refine ⟨by simpa [Cursor.peek, hc] using h1,
              ⟨pre ++ [ch], by simp [Cursor.peek, hc, hpre]⟩, ?_, ?_⟩
      · intro hne
        simp [Cursor.peek, hc] at hne
      · intro _
        simp only [Cursor.peek, hc]
        simp
        simp at hidx hlen
        omega
    | cons a t =>
      refine ⟨by simpa [Cursor.peek, hc] using h1,
              ⟨pre ++ [ch], by simp [Cursor.peek, hc, hpre]⟩, ?_, ?_⟩
      · intro _
        simp only [Cursor.peek, hc]
        simp
        simp at hidx hlen
        omega
      · intro hemp
        simp [Cursor.peek, hc] at hemp

/-- The `peek_inc` loop preserves the cursor invariant. -/
theorem CursorInv.peekIncGo {input : List Char} (n : Nat) :
    ∀ {c : Cursor}, CursorInv input c → CursorInv input (Cursor.peekIncGo n c) := by
  induction n with
  | zero => intro c h; exact h
  | succ n ih =>
    intro c h
    unfold Cursor.peekIncGo
    by_cases he : c.chars.isEmpty
    · simpa [he] using h
    · simpa [he] using ih (CursorInv.peek h)

/-- `peek_inc` preserves the cursor invariant. -/
theorem CursorInv.peekInc {input : List Char} (x : Nat) {c : Cursor}
    (h : CursorInv input c) : CursorInv input (Cursor.peekInc x c) :=
  CursorInv.peekIncGo (x + 1) h

/-- The `eat_while` loop preserves the cursor invariant. -/
theorem CursorInv.eatWhileFuel {input : List Char} (p : Char → Bool) (n : Nat) :
    ∀ {c : Cursor}, CursorInv input c →
      CursorInv input (Cursor.eatWhileFuel p n c).2 := by
  induction n with
  | zero => intro c h; exact h
  | succ n ih =>
    intro c h
    cases hc : c.chars with
    | nil => simpa [Cursor.eatWhileFuel, hc] using h
    | cons ch rest =>
      by_cases hp : p ch
      · have := ih (CursorInv.peek h)
        simpa [Cursor.eatWhileFuel, hc, hp] using this
      · simpa [Cursor.eatWhileFuel, hc, hp] using h

/-- The `eat_while_cursor` loop preserves the cursor invariant. -/
theorem CursorInv.eatWhileCursorFuel {input : List Char}
    (p : Cursor → Char → Bool) (n : Nat) :
    ∀ {c : Cursor}, CursorInv input c →
      CursorInv input (Cursor.eatWhileCursorFuel p n c).2 := by
  induction n with
  | zero => intro c h; exact h
  | succ n ih =>
    intro c h
    cases hc : c.chars with
    | nil => simpa [Cursor.eatWhileCursorFuel, hc] using h
    | cons ch rest =>
      by_cases hp : p c ch
      · have := ih (CursorInv.peek h)
        simpa [Cursor.eatWhileCursorFuel, hc, hp] using this
      · simpa [Cursor.eatWhileCursorFuel, hc, hp] using h

/-- Every reachable cursor state satisfies the invariant. -/
theorem CursorInv.ofReachable {input : List Char} {c : Cursor}
    (hr : Reachable input c) : CursorInv input c := by
  induction hr with
  | new =>
    refine ⟨rfl, ⟨[], rfl⟩, ?_, ?_⟩
    · intro _
      simp [Cursor.new]
    · intro he
      simp [Cursor.new] at he ⊢
      simp [he]
  | peek _ ih => exact CursorInv.peek ih
  | peekInc x _ ih => exact CursorInv.peekInc x ih
  | eatWhile p _ ih => exact CursorInv.eatWhileFuel p _ ih
  | eatWhileCursor p _ ih => exact CursorInv.eatWhileCursorFuel p _ ih


/-- On single-byte (ASCII) characters, byte length equals character count. -/
theorem utf8Len_ascii {l : List Char} (h : ∀ ch ∈ l, ch.utf8Size = 1) :
    utf8Len l = l.length := by
  induction l with
  | nil => rfl
  | cons a t ih =>
    have ha := h a (List.mem_cons_self a t)
    have ht := ih (fun ch hch => h ch (List.mem_cons_of_mem a hch))
    simp [utf8Len] at ht ⊢
    omega

/-- C2 (amended): after any sequence of cursor operations on `input`,
the remaining stream is a suffix of the input and, *while it is nonempty*,
`consumed_offset` (`index`) equals the number of characters consumed
(`len(buffer) - len(remaining)` counted in characters); once the stream has
been exhausted, `index` equals `len(input) - 1` instead (consuming the final
character does not advance it). `eaten()` measures bytes, so it coincides
with `index` on a nonempty stream exactly when the input is single-byte
(ASCII) — the claimed identity `index = eaten()` fails at end of stream
(`consumed_offset_cex`) and on multi-byte input. -/
theorem consumed_offset_invariant (input : List Char) (c : Cursor)
    (hr : Reachable input c) :
    c.ilen = utf8Len input ∧
    (∃ pre, input = pre ++ c.chars) ∧
    (c.chars ≠ [] → c.index = input.length - c.chars.length) ∧
    (c.chars = [] → c.index = input.length - 1) ∧
    ((∀ ch ∈ input, ch.utf8Size = 1) → c.chars ≠ [] →
      c.index = Cursor.eaten c) := by
  obtain ⟨h1, ⟨pre, hpre⟩, h3, h4⟩ := CursorInv.ofReachable hr
  refine ⟨h1, ⟨pre, hpre⟩, h3, h4, ?_⟩
  intro hascii hne
  have hmem : ∀ ch ∈ c.chars, ch.utf8Size = 1 := by
    intro ch hch
    exact hascii ch (by rw [hpre]; exact List.mem_append_right pre hch)
  have hin : utf8Len input = input.length := utf8Len_ascii hascii
  have hch : utf8Len c.chars = c.chars.length := utf8Len_ascii hmem
  have hle : c.chars.length ≤ input.length := by
    rw [hpre]
    simp
  unfold Cursor.eaten
  rw [h1, hin, hch, h3 hne]

/-- Witness for `consumed_offset_invariant`: after one `peek` on the
concrete input `"ab"`, `index` equals `eaten()`. -/
theorem consumed_offset_invariant_witness :
    (Cursor.peek (Cursor.new ['a', 'b'])).2.index =
      Cursor.eaten (Cursor.peek (Cursor.new ['a', 'b'])).2 := by
  have h := consumed_offset_invariant ['a', 'b'] _
    (Reachable.peek Reachable.new)
  exact h.2.2.2.2 (by decide) (by decide)



/-- A character admitted by the `eat_identifier` guard satisfies the
`eat_while` predicate of the identifier run. -/
theorem identStart_pred {c0 : Char}
    (h : c0 = '_' ∨ ('a' ≤ c0 ∧ c0 ≤ 'z') ∨ ('A' ≤ c0 ∧ c0 ≤ 'Z')) :
    (!c0.isWhitespace && (c0.isAlphanum || c0 = '_')) = true := by
  rcases h with rfl | ⟨h1, h2⟩ | ⟨h1, h2⟩
  · decide
  · have hw : c0.isWhitespace = false := by
      simp only [Char.isWhitespace, Bool.or_eq_false_iff, decide_eq_false_iff_not]
      refine ⟨⟨⟨?_, ?_⟩, ?_⟩, ?_⟩ <;> rintro rfl <;> revert h1 <;> decide
    have hl : c0.isLower = true := by
      simp only [Char.isLower]
      rw [Bool.and_eq_true, decide_eq_true_eq, decide_eq_true_eq]
      exact ⟨h1, h2⟩
    simp [Char.isAlphanum, Char.isAlpha, hl, hw]
  · have hw : c0.isWhitespace = false := by
      simp only [Char.isWhitespace, Bool.or_eq_false_iff, decide_eq_false_iff_not]
      refine ⟨⟨⟨?_, ?_⟩, ?_⟩, ?_⟩ <;> rintro rfl <;> revert h1 <;> decide
    have hu : c0.isUpper = true := by
      simp only [Char.isUpper]
      rw [Bool.and_eq_true, decide_eq_true_eq, decide_eq_true_eq]
      exact ⟨h1, h2⟩
    simp [Char.isAlphanum, Char.isAlpha, hu, hw]

/-- A character admitted by the `eat_number` guard satisfies the
`eat_while` predicate of the digit-or-dot run. -/
theorem digit_pred {c0 : Char} (h : '0' ≤ c0 ∧ c0 ≤ '9') :
    (c0.isDigit || c0 = '.') = true := by
  have hd : c0.isDigit = true := by
    simp only [Char.isDigit]
    rw [Bool.and_eq_true, decide_eq_true_eq, decide_eq_true_eq]
    exact ⟨h.1, h.2⟩
  simp [hd]


/-- `peek` always leaves the tail of the stream. -/
theorem Cursor.peek_chars (c : Cursor) :
    (Cursor.peek c).2.chars = c.chars.tail := by
  cases hc : c.chars with
  | nil => simp [Cursor.peek, hc]
  | cons ch rest =>
    simp only [Cursor.peek, hc]
    split <;> simp

/-- `peek` never lengthens the stream. -/
theorem Cursor.peek_le (c : Cursor) :
    (Cursor.peek c).2.chars.length ≤ c.chars.length := by
  rw [Cursor.peek_chars]
  cases c.chars <;> simp

/-- `peek` on a nonempty stream strictly shortens it. -/
theorem Cursor.peek_lt {c : Cursor} (h : c.chars ≠ []) :
    (Cursor.peek c).2.chars.length < c.chars.length := by
  rw [Cursor.peek_chars]
  cases hc : c.chars with
  | nil => exact absurd hc h
  | cons ch rest => simp

/-- The `peek_inc` loop never lengthens the stream. -/
theorem Cursor.peekIncGo_le (n : Nat) (c : Cursor) :
    (Cursor.peekIncGo n c).chars.length ≤ c.chars.length := by
  induction n generalizing c with
  | zero => exact le_refl _
  | succ n ih =>
    unfold Cursor.peekIncGo
    by_cases he : c.chars.isEmpty
    · simp [he]
    · simp only [he, Bool.false_eq_true, if_false]
      exact le_trans (ih _) (Cursor.peek_le c)

/-- A `peek_inc` loop with at least one allowed iteration strictly
shortens a nonempty stream. -/
theorem Cursor.peekIncGo_lt {n : Nat} {c : Cursor} (hne : c.chars ≠ [])
    (hn : n ≠ 0) : (Cursor.peekIncGo n c).chars.length < c.chars.length := by
  cases n with
  | zero => exact absurd rfl hn
  | succ n =>
    unfold Cursor.peekIncGo
    have he : c.chars.isEmpty = false := by simpa [List.isEmpty_iff] using hne
    simp only [he, Bool.false_eq_true, if_false]
    exact lt_of_le_of_lt (Cursor.peekIncGo_le n _) (Cursor.peek_lt hne)

/-- `peek_inc` strictly shortens a nonempty stream. -/
theorem Cursor.peekInc_lt {x : Nat} {c : Cursor} (hne : c.chars ≠ []) :
    (Cursor.peekInc x c).chars.length < c.chars.length :=
  Cursor.peekIncGo_lt hne (Nat.succ_ne_zero x)

/-- Each `eat_while` iteration moves exactly one character from the stream
into the segment: segment length plus remaining length is invariant. -/
theorem Cursor.eatWhileFuel_len (p : Char → Bool) (n : Nat) :
    ∀ c : Cursor, (Cursor.eatWhileFuel p n c).1.length +
      (Cursor.eatWhileFuel p n c).2.chars.length = c.chars.length := by
  induction n with
  | zero => intro c; simp [Cursor.eatWhileFuel]
  | succ n ih =>
    intro c
    cases hc : c.chars with
    | nil => simp [Cursor.eatWhileFuel, hc]
    | cons ch rest =>
      by_cases hp : p ch
      · have hrec := ih (Cursor.peek c).2
        have hpk : (Cursor.peek c).2.chars = rest := by
          rw [Cursor.peek_chars, hc]
          rfl
        rw [hpk] at hrec
        simp only [Cursor.eatWhileFuel, hc, hp, if_true]
        simp [hc]
        omega
      · simp [Cursor.eatWhileFuel, hc, hp]

/-- `Cursor.eatWhile` form of `Cursor.eatWhileFuel_len`. -/
theorem Cursor.eatWhile_len (p : Char → Bool) (c : Cursor) :
    (Cursor.eatWhile p c).1.length + (Cursor.eatWhile p c).2.chars.length =
      c.chars.length :=
  Cursor.eatWhileFuel_len p c.chars.length c

/-- `eat_while` never lengthens the stream. -/
theorem Cursor.eatWhile_le (p : Char → Bool) (c : Cursor) :
    (Cursor.eatWhile p c).2.chars.length ≤ c.chars.length := by
  have := Cursor.eatWhile_len p c
  omega

/-- An `eat_while` run with a nonempty segment strictly shortened the
stream. -/
theorem Cursor.eatWhile_ne_nil_lt {p : Char → Bool} {c : Cursor}
    (h : (Cursor.eatWhile p c).1 ≠ []) :
    (Cursor.eatWhile p c).2.chars.length < c.chars.length := by
  have := Cursor.eatWhile_len p c
  have hpos : 0 < (Cursor.eatWhile p c).1.length := List.length_pos.mpr h
  omega

/-- `eat_while` strictly shortens the stream when the head character
satisfies the predicate. -/
theorem Cursor.eatWhile_lt {p : Char → Bool} {c : Cursor} {ch : Char}
    {rest : List Char} (hc : c.chars = ch :: rest) (hp : p ch = true) :
    (Cursor.eatWhile p c).2.chars.length < c.chars.length := by
  apply Cursor.eatWhile_ne_nil_lt
  unfold Cursor.eatWhile
  simp [Cursor.eatWhileFuel, hc, hp]

/-- `eat_while_cursor` analogue of `Cursor.eatWhileFuel_len`. -/
theorem Cursor.eatWhileCursorFuel_len (p : Cursor → Char → Bool) (n : Nat) :
    ∀ c : Cursor, (Cursor.eatWhileCursorFuel p n c).1.length +
      (Cursor.eatWhileCursorFuel p n c).2.chars.length = c.chars.length := by
  induction n with
  | zero => intro c; simp [Cursor.eatWhileCursorFuel]
  | succ n ih =>
    intro c
    cases hc : c.chars with
    | nil => simp [Cursor.eatWhileCursorFuel, hc]
    | cons ch rest =>
      by_cases hp : p c ch
      · have hrec := ih (Cursor.peek c).2
        have hpk : (Cursor.peek c).2.chars = rest := by
          rw [Cursor.peek_chars, hc]
          rfl
        rw [hpk] at hrec
        simp only [Cursor.eatWhileCursorFuel, hc, hp, if_true]
        simp [hc]
        omega
      · simp [Cursor.eatWhileCursorFuel, hc, hp]

/-- `eat_while_cursor` never lengthens the stream. -/
theorem Cursor.eatWhileCursor_le (p : Cursor → Char → Bool) (c : Cursor) :
    (Cursor.eatWhileCursor p c).2.chars.length ≤ c.chars.length := by
  have hlen : (Cursor.eatWhileCursor p c).1.length +
      (Cursor.eatWhileCursor p c).2.chars.length = c.chars.length :=
    Cursor.eatWhileCursorFuel_len p c.chars.length c
  omega

/-- An `eat_while_cursor` run with a nonempty segment strictly shortened
the stream. -/
theorem Cursor.eatWhileCursor_ne_nil_lt {p : Cursor → Char → Bool}
    {c : Cursor} (h : (Cursor.eatWhileCursor p c).1 ≠ []) :
    (Cursor.eatWhileCursor p c).2.chars.length < c.chars.length := by
  have hlen : (Cursor.eatWhileCursor p c).1.length +
      (Cursor.eatWhileCursor p c).2.chars.length = c.chars.length :=
    Cursor.eatWhileCursorFuel_len p c.chars.length c
  have hpos : 0 < (Cursor.eatWhileCursor p c).1.length := List.length_pos.mpr h
  omega

/-- `eat_while_cursor` strictly shortens the stream when the head
character satisfies the predicate. -/
theorem Cursor.eatWhileCursor_lt {p : Cursor → Char → Bool} {c : Cursor}
    {ch : Char} {rest : List Char} (hc : c.chars = ch :: rest)
    (hp : p c ch = true) :
    (Cursor.eatWhileCursor p c).2.chars.length < c.chars.length := by
  apply Cursor.eatWhileCursor_ne_nil_lt
  unfold Cursor.eatWhileCursor
  simp [Cursor.eatWhileCursorFuel, hc, hp]

/-- A non-sentinel result of `nth_char(0)` is the head of the stream. -/
theorem nthCharS_head {c : Cursor} {x : Char} (h : c.nthCharS 0 = x)
    (hx : x ≠ END_OF_FILE) : c.chars = x :: c.chars.tail := by
  cases hc : c.chars with
  | nil =>
    rw [Cursor.nthCharS, hc] at h
    simp at h
    exact absurd h.symm hx
  | cons a t =>
    rw [Cursor.nthCharS, hc] at h
    simp at h
    simp [hc, h]

/-- A non-sentinel result of `nth_char(i)` bounds the stream length. -/
theorem nthCharS_ne_eof {c : Cursor} {i : Nat}
    (h : c.nthCharS i ≠ END_OF_FILE) : i < c.chars.length := by
  by_contra hle
  push_neg at hle
  apply h
  rw [Cursor.nthCharS]
  exact List.getD_eq_default _ _ hle


/-- A successful `eat_whitespace` strictly shortens the stream. -/
theorem eatWhitespace_some {c : Cursor} {s : List Char}
    (h : (eatWhitespace c).1 = some s) :
    (eatWhitespace c).2.chars.length < c.chars.length := by
  by_cases he : (Cursor.eatWhile Char.isWhitespace c).1.isEmpty
  · simp [eatWhitespace, he] at h
  · have hlt := Cursor.eatWhile_ne_nil_lt
      (p := Char.isWhitespace) (c := c) (by simpa [List.isEmpty_iff] using he)
    simpa [eatWhitespace, he] using hlt

/-- A successful `eat_comment` strictly shortens the stream. -/
theorem eatComment_some {c : Cursor} {s : List Char}
    (h : (eatComment c).1 = some s) :
    (eatComment c).2.chars.length < c.chars.length := by
  by_cases h0 : c.nthCharS 0 = '/'
  · have hch : c.chars = '/' :: c.chars.tail := nthCharS_head h0 (by decide)
    by_cases h1 : c.nthCharS 1 = '/'
    · have hlt := Cursor.eatWhile_lt (p := fun ch => ch ≠ '\n') hch (by decide)
      simpa [eatComment, h0, h1] using hlt
    · by_cases h2 : c.nthCharS 1 = '*'
      · have hlt := Cursor.eatWhileCursor_lt (p := commentBlockPred) hch
          (by simp [commentBlockPred])
        simpa [eatComment, h0, h1, h2] using hlt
      · simp [eatComment, h0, h1, h2] at h
  · simp [eatComment, h0] at h

/-- A successful `eat_operator` strictly shortens the stream. -/
theorem eatOperator_some {c : Cursor} {s : List Char}
    (h : (eatOperator c).1 = some s) :
    (eatOperator c).2.chars.length < c.chars.length := by
  by_cases m0 : c.nthCharS 0 ∈ opChars
  · have hne : c.chars ≠ [] := by
      intro hnil
      rw [Cursor.nthCharS, hnil] at m0
      exact absurd m0 (by decide)
    have hlt := Cursor.peek_lt hne
    simpa [eatOperator, m0] using hlt
  · by_cases o0 : c.nthCharS 0 = 'o'
    · have hne : c.chars ≠ [] := by
        intro hnil
        rw [Cursor.nthCharS, hnil] at o0
        exact absurd o0 (by decide)
      by_cases o1 : c.nthCharS 1 = 'r'
      · have hlt := Cursor.peekInc_lt (x := 2) hne
        simpa [eatOperator, opChars, m0, o0, o1] using hlt
      · simp [eatOperator, opChars, m0, o0, o1] at h
    · by_cases a0 : c.nthCharS 0 = 'a'
      · have hne : c.chars ≠ [] := by
          intro hnil
          rw [Cursor.nthCharS, hnil] at a0
          exact absurd a0 (by decide)
        by_cases a1 : c.nthCharS 1 = 'n' ∧ c.nthCharS 2 = 'd'
        · have hlt := Cursor.peekInc_lt (x := 3) hne
          simpa [eatOperator, opChars, m0, o0, a0, a1] using hlt
        · simp [eatOperator, opChars, m0, o0, a0, a1] at h
      · simp [eatOperator, m0, o0, a0] at h

/-- A successful `eat_keyword` loop strictly shortens the stream. -/
theorem eatKeywordGo_some {c : Cursor} :
    ∀ (fuel i : Nat) (seg : List Char) (k : Keyword),
      (eatKeywordGo c fuel i seg).1 = some k →
        (eatKeywordGo c fuel i seg).2.chars.length < c.chars.length := by
  intro fuel
  induction fuel with
  | zero => intro i seg k h; exact absurd h (by simp [eatKeywordGo])
  | succ fuel ih =>
    intro i seg k h
    by_cases h0 : c.nthCharS i = END_OF_FILE
    · simp [eatKeywordGo, h0] at h
    · have hne : c.chars ≠ [] := by
        intro hnil
        have := nthCharS_ne_eof h0
        rw [hnil] at this
        simp at this
      cases hk : Keyword.fromStr (String.mk (seg ++ [c.nthCharS i])) with
      | none =>
        simp only [eatKeywordGo, h0, if_false, hk] at h ⊢
        exact ih (i + 1) _ k h
      | some kw =>
        by_cases hw : (c.nthCharS (i + 1)).isWhitespace
        · have hlt := Cursor.peekInc_lt (x := i) hne
          simpa [eatKeywordGo, h0, hk, hw] using hlt
        · simp [eatKeywordGo, h0, hk, hw] at h

/-- A successful `eat_keyword` strictly shortens the stream. -/
theorem eatKeyword_some {c : Cursor} {k : Keyword}
    (h : (eatKeyword c).1 = some k) :
    (eatKeyword c).2.chars.length < c.chars.length :=
  eatKeywordGo_some MAX_KEYWORD_LENGTH 0 [] k h

/-- A matching `eat_boolean` inner loop strictly shortens the stream. -/
theorem boolLoop_matched {c : Cursor} {v : List Char} :
    ∀ (fuel i : Nat) (seg s : List Char) (c2 : Cursor),
      boolLoop c v fuel i seg = .matched s c2 →
        c2.chars.length < c.chars.length := by
  intro fuel
  induction fuel with
  | zero => intro i seg s c2 h; exact absurd h (by simp [boolLoop])
  | succ fuel ih =>
    intro i seg s c2 h
    by_cases hi : i < v.length
    · simp only [boolLoop] at h
      rw [if_pos hi] at h
      by_cases h0 : c.nthCharS i = END_OF_FILE
      · rw [if_pos h0] at h
        exact absurd h (by simp)
      · rw [if_neg h0] at h
        have hne : c.chars ≠ [] := by
          intro hnil
          have := nthCharS_ne_eof h0
          rw [hnil] at this
          simp at this
        by_cases hm : c.nthCharS i = v.getD i END_OF_FILE
        · rw [if_pos hm] at h
          by_cases hs : seg ++ [c.nthCharS i] = v
          · rw [if_pos hs] at h
            injection h with e1 e2
            subst e2
            exact Cursor.peekInc_lt hne
          · rw [if_neg hs] at h
            exact ih (i + 1) _ s c2 h
        · rw [if_neg hm] at h
          exact ih (i + 1) _ s c2 h
    · simp [boolLoop, hi] at h

/-- A successful `eat_boolean` strictly shortens the stream. -/
theorem eatBoolean_some {c : Cursor} {s : List Char}
    (h : (eatBoolean c).1 = some s) :
    (eatBoolean c).2.chars.length < c.chars.length := by
  have hle := Cursor.eatWhile_le Char.isAlpha c
  cases hb1 : boolLoop (Cursor.eatWhile Char.isAlpha c).2 ['t', 'r', 'u', 'e'] 4 0 [] with
  | hitEof => simp [eatBoolean, hb1] at h
  | matched seg c2 =>
    have := boolLoop_matched 4 0 [] seg c2 hb1
    have hfin : (eatBoolean c).2 = c2 := by simp [eatBoolean, hb1]
    rw [hfin]
    omega
  | exhausted =>
    cases hb2 : boolLoop (Cursor.eatWhile Char.isAlpha c).2 ['f', 'a', 'l', 's', 'e'] 5 0 [] with
    | hitEof => simp [eatBoolean, hb1, hb2] at h
    | matched seg c2 =>
      have := boolLoop_matched 5 0 [] seg c2 hb2
      have hfin : (eatBoolean c).2 = c2 := by simp [eatBoolean, hb1, hb2]
      rw [hfin]
      omega
    | exhausted => simp [eatBoolean, hb1, hb2] at h


/-- A successful `eat_identifier` strictly shortens the stream. -/
theorem eatIdentifier_some {c : Cursor} {s : List Char}
    (h : (eatIdentifier c).1 = some s) :
    (eatIdentifier c).2.chars.length < c.chars.length := by
  by_cases g : c.nthCharS 0 = '_' ∨ ('a' ≤ c.nthCharS 0 ∧ c.nthCharS 0 ≤ 'z') ∨
      ('A' ≤ c.nthCharS 0 ∧ c.nthCharS 0 ≤ 'Z')
  · have h0 : c.nthCharS 0 ≠ END_OF_FILE := by
      intro heq
      rw [heq] at g
      exact absurd g (by decide)
    have hch := nthCharS_head rfl h0
    have hp := identStart_pred g
    have hlt := Cursor.eatWhile_lt
      (p := fun ch => !ch.isWhitespace && (ch.isAlphanum || ch = '_')) hch hp
    simpa [eatIdentifier, g] using hlt
  · simp [eatIdentifier, g] at h

/-- A successful `eat_number` strictly shortens the stream. -/
theorem eatNumber_some {c : Cursor} {n : Numeric}
    (h : (eatNumber c).1 = some n) :
    (eatNumber c).2.chars.length < c.chars.length := by
  by_cases g : '0' ≤ c.nthCharS 0 ∧ c.nthCharS 0 ≤ '9'
  · have h0 : c.nthCharS 0 ≠ END_OF_FILE := by
      intro heq
      rw [heq] at g
      exact absurd g (by decide)
    have hch := nthCharS_head rfl h0
    have hp := digit_pred g
    have hlt := Cursor.eatWhile_lt (p := fun ch => ch.isDigit || ch = '.') hch hp
    simpa [eatNumber, g] using hlt
  · simp [eatNumber, g] at h

/-- A string-producing `eat_string` strictly shortens the stream. -/
theorem eatString_strung {c : Cursor} {v : StringType} {s : List Char}
    (h : (eatString c).1 = .strung v s) :
    (eatString c).2.chars.length < c.chars.length := by
  by_cases g : c.nthCharS 0 ≠ qDouble ∧ c.nthCharS 0 ≠ qSingle ∧
      c.nthCharS 0 ≠ qBacktick
  · simp [eatString, g] at h
  · have hne : c.chars ≠ [] := by
      intro hnil
      apply g
      rw [Cursor.nthCharS, hnil]
      refine ⟨by decide, by decide, by decide⟩
    rcases hp : Cursor.peek c with ⟨o, c2⟩
    have hlt2 : c2.chars.length < c.chars.length := by
      have := Cursor.peek_lt hne
      rw [hp] at this
      exact this
    cases o with
    | none => simp [eatString, g, hp] at h
    | some ch =>
      by_cases hd : ch = qDouble
      · have hle := Cursor.eatWhile_le (fun x => x ≠ ch) c2
        have : (eatString c).2 = (Cursor.eatWhile (fun x => x ≠ ch) c2).2 := by
          simp [eatString, g, hp, hd]
        rw [this]
        omega
      · by_cases hs : ch = qSingle
        · have hle := Cursor.eatWhile_le (fun x => x ≠ ch) c2
          have : (eatString c).2 = (Cursor.eatWhile (fun x => x ≠ ch) c2).2 := by
            simp [eatString, g, hp, hd, hs, show qSingle ≠ qDouble by decide]
          rw [this]
          omega
        · simp [eatString, g, hp, hd, hs] at h

/-- A successful `eat_value_reserved` strictly shortens the stream. -/
theorem eatValueReserved_some {c : Cursor} {ts : TokenType × List Char}
    (h : (eatValueReserved c).1 = some ts) :
    (eatValueReserved c).2.chars.length < c.chars.length := by
  by_cases h0 : c.nthCharS 0 = ':'
  · have hne : c.chars ≠ [] := by
      intro hnil
      rw [Cursor.nthCharS, hnil] at h0
      exact absurd h0 (by decide)
    by_cases h1 : c.nthCharS 1 = ':'
    · have hlt := Cursor.peekInc_lt (x := 1) hne
      simpa [eatValueReserved, h0, h1] using hlt
    · have hlt := Cursor.peek_lt hne
      simpa [eatValueReserved, h0, h1] using hlt
  · simp [eatValueReserved, h0] at h

/-- `eat_identifier` never lengthens the stream. -/
theorem eatIdentifier_le (c : Cursor) :
    (eatIdentifier c).2.chars.length ≤ c.chars.length := by
  by_cases g : c.nthCharS 0 = '_' ∨ ('a' ≤ c.nthCharS 0 ∧ c.nthCharS 0 ≤ 'z') ∨
      ('A' ≤ c.nthCharS 0 ∧ c.nthCharS 0 ≤ 'Z')
  · have := Cursor.eatWhile_le
      (fun ch => !ch.isWhitespace && (ch.isAlphanum || ch = '_')) c
    simpa [eatIdentifier, g] using this
  · simp [eatIdentifier, g]

/-- `eat_number` never lengthens the stream. -/
theorem eatNumber_le (c : Cursor) :
    (eatNumber c).2.chars.length ≤ c.chars.length := by
  by_cases g : '0' ≤ c.nthCharS 0 ∧ c.nthCharS 0 ≤ '9'
  · have := Cursor.eatWhile_le (fun ch => ch.isDigit || ch = '.') c
    simpa [eatNumber, g] using this
  · simp [eatNumber, g]

/-- `eat_string` never lengthens the stream. -/
theorem eatString_le (c : Cursor) :
    (eatString c).2.chars.length ≤ c.chars.length := by
  by_cases g : c.nthCharS 0 ≠ qDouble ∧ c.nthCharS 0 ≠ qSingle ∧
      c.nthCharS 0 ≠ qBacktick
  · simp [eatString, g]
  · rcases hp : Cursor.peek c with ⟨o, c2⟩
    have hle2 : c2.chars.length ≤ c.chars.length := by
      have := Cursor.peek_le c
      rw [hp] at this
      exact this
    cases o with
    | none => simpa [eatString, g, hp] using hle2
    | some ch =>
      by_cases hd : ch = qDouble
      · have hle := Cursor.eatWhile_le (fun x => x ≠ ch) c2
        have he : (eatString c).2 = (Cursor.eatWhile (fun x => x ≠ ch) c2).2 := by
          simp [eatString, g, hp, hd]
        rw [he]
        omega
      · by_cases hs : ch = qSingle
        · have hle := Cursor.eatWhile_le (fun x => x ≠ ch) c2
          have he : (eatString c).2 = (Cursor.eatWhile (fun x => x ≠ ch) c2).2 := by
            simp [eatString, g, hp, hd, hs, show qSingle ≠ qDouble by decide]
          rw [he]
          omega
        · simpa [eatString, g, hp, hd, hs] using hle2

/-- `eat_value_reserved` never lengthens the stream. -/
theorem eatValueReserved_le (c : Cursor) :
    (eatValueReserved c).2.chars.length ≤ c.chars.length := by
  by_cases h0 : c.nthCharS 0 = ':'
  · by_cases h1 : c.nthCharS 1 = ':'
    · have := Cursor.peekIncGo_le 2 c
      simpa [eatValueReserved, h0, h1, Cursor.peekInc] using this
    · have := Cursor.peek_le c
      simpa [eatValueReserved, h0, h1] using this
  · simp [eatValueReserved, h0]

/-- `eat_boolean` never lengthens the stream. -/
theorem eatBoolean_le (c : Cursor) :
    (eatBoolean c).2.chars.length ≤ c.chars.length := by
  have hle := Cursor.eatWhile_le Char.isAlpha c
  cases hb1 : boolLoop (Cursor.eatWhile Char.isAlpha c).2 ['t', 'r', 'u', 'e'] 4 0 [] with
  | hitEof => simpa [eatBoolean, hb1] using hle
  | matched seg c2 =>
    have := boolLoop_matched 4 0 [] seg c2 hb1
    have hfin : (eatBoolean c).2 = c2 := by simp [eatBoolean, hb1]
    rw [hfin]
    omega
  | exhausted =>
    cases hb2 : boolLoop (Cursor.eatWhile Char.isAlpha c).2 ['f', 'a', 'l', 's', 'e'] 5 0 [] with
    | hitEof => simpa [eatBoolean, hb1, hb2] using hle
    | matched seg c2 =>
      have := boolLoop_matched 5 0 [] seg c2 hb2
      have hfin : (eatBoolean c).2 = c2 := by simp [eatBoolean, hb1, hb2]
      rw [hfin]
      omega
    | exhausted => simpa [eatBoolean, hb1, hb2] using hle

/-- When `eat_boolean` declines, either it consumed nothing (cursor
unchanged) or it strictly shortened the stream with its leading
alphabetic `eat_while`. -/
theorem eatBoolean_decline_cases {c : Cursor}
    (h : (eatBoolean c).1 = none) :
    (eatBoolean c).2 = c ∨ (eatBoolean c).2.chars.length < c.chars.length := by
  have hfin : (eatBoolean c).1 = none → (eatBoolean c).2 =
      (Cursor.eatWhile Char.isAlpha c).2 := by
    intro hn
    cases hb1 : boolLoop (Cursor.eatWhile Char.isAlpha c).2 ['t', 'r', 'u', 'e'] 4 0 [] with
    | hitEof => simp [eatBoolean, hb1]
    | matched seg c2 => simp [eatBoolean, hb1] at hn
    | exhausted =>
      cases hb2 : boolLoop (Cursor.eatWhile Char.isAlpha c).2 ['f', 'a', 'l', 's', 'e'] 5 0 [] with
      | hitEof => simp [eatBoolean, hb1, hb2]
      | matched seg c2 => simp [eatBoolean, hb1, hb2] at hn
      | exhausted => simp [eatBoolean, hb1, hb2]
  rw [hfin h]
  by_cases hseg : (Cursor.eatWhile Char.isAlpha c).1 = []
  · left
    exact Cursor.eatWhile_nil hseg
  · right
    exact Cursor.eatWhile_ne_nil_lt hseg


/-- Whenever `eat` returns (does not panic) on a cursor that is not at end
of input, at least one character has been removed from the stream. -/
theorem eat_progress {c : Cursor} (hne : c.chars ≠ [])
    (hnp : (eat c).1 ≠ EatRes.panicked) :
    (eat c).2.chars.length < c.chars.length := by
  rcases hw : eatWhitespace c with ⟨ow, cw⟩
  cases ow with
  | some s =>
    have hlt := eatWhitespace_some (c := c) (s := s) (by rw [hw])
    rw [hw] at hlt
    simpa [eat, hw] using hlt
  | none =>
    have hweq : cw = c := by
      have h2 := eatWhitespace_decline c (by rw [hw])
      rw [hw] at h2
      exact h2
    subst cw
    rcases hcm : eatComment c with ⟨oc, cc⟩
    cases oc with
    | some s =>
      have hlt := eatComment_some (c := c) (s := s) (by rw [hcm])
      rw [hcm] at hlt
      simpa [eat, hw, hcm] using hlt
    | none =>
      have hceq : cc = c := by
        have h2 := eatComment_decline c (by rw [hcm])
        rw [hcm] at h2
        exact h2
      subst cc
      rcases hop : eatOperator c with ⟨oo, co⟩
      cases oo with
      | some s =>
        have hlt := eatOperator_some (c := c) (s := s) (by rw [hop])
        rw [hop] at hlt
        simpa [eat, hw, hcm, hop] using hlt
      | none =>
        have hoeq : co = c := by
          have h2 := eatOperator_decline c (by rw [hop])
          rw [hop] at h2
          exact h2
        subst co
        rcases hkw : eatKeyword c with ⟨ok, ck⟩
        cases ok with
        | some k =>
          have hlt := eatKeyword_some (c := c) (k := k) (by rw [hkw])
          rw [hkw] at hlt
          simpa [eat, hw, hcm, hop, hkw] using hlt
        | none =>
          have hkeq : ck = c := by
            have h2 := eatKeyword_decline c (by rw [hkw])
            rw [hkw] at h2
            exact h2
          subst ck
          rcases hbl : eatBoolean c with ⟨ob, cb⟩
          cases ob with
          | some s =>
            have hlt := eatBoolean_some (c := c) (s := s) (by rw [hbl])
            rw [hbl] at hlt
            simpa [eat, hw, hcm, hop, hkw, hbl] using hlt
          | none =>
            have hbcase := eatBoolean_decline_cases (c := c) (by rw [hbl])
            rw [hbl] at hbcase
            dsimp only at hbcase
            rcases hbcase with hbeq | hblt
            · -- the boolean recognizer consumed nothing: continue on `c`
              subst cb
              rcases hid : eatIdentifier c with ⟨oi, ci⟩
              cases oi with
              | some s =>
                have hlt := eatIdentifier_some (c := c) (s := s) (by rw [hid])
                rw [hid] at hlt
                simpa [eat, hw, hcm, hop, hkw, hbl, hid] using hlt
              | none =>
                have hieq : ci = c := by
                  have h2 := eatIdentifier_decline c (by rw [hid])
                  rw [hid] at h2
                  exact h2
                subst ci
                rcases hnum : eatNumber c with ⟨onum, cn⟩
                cases onum with
                | some nv =>
                  have hlt := eatNumber_some (c := c) (n := nv) (by rw [hnum])
                  rw [hnum] at hlt
                  simpa [eat, hw, hcm, hop, hkw, hbl, hid, hnum] using hlt
                | none =>
                  have hneq : cn = c := by
                    have h2 := eatNumber_decline c (by rw [hnum])
                    rw [hnum] at h2
                    exact h2
                  subst cn
                  rcases hstr : eatString c with ⟨os, cs⟩
                  cases os with
                  | panicked =>
                    exfalso
                    apply hnp
                    simp [eat, hw, hcm, hop, hkw, hbl, hid, hnum, hstr]
                  | strung v s =>
                    have hlt := eatString_strung (c := c) (v := v) (s := s)
                      (by rw [hstr])
                    rw [hstr] at hlt
                    dsimp only at hlt
                    have hpk := Cursor.peek_le cs
                    have hfin : (eat c).2 = (Cursor.peek cs).2 := by
                      simp [eat, hw, hcm, hop, hkw, hbl, hid, hnum, hstr]
                    rw [hfin]
                    omega
                  | declined =>
                    have hseq : cs = c := by
                      have h2 := eatString_decline c (by rw [hstr])
                      rw [hstr] at h2
                      exact h2
                    subst cs
                    rcases hvr : eatValueReserved c with ⟨ov, cv⟩
                    cases ov with
                    | some ts =>
                      have hlt : (eatValueReserved c).2.chars.length <
                          c.chars.length :=
                        eatValueReserved_some (c := c) (by rw [hvr])
                      rw [hvr] at hlt
                      simpa [eat, hw, hcm, hop, hkw, hbl, hid, hnum, hstr, hvr]
                        using hlt
                    | none =>
                      have hveq : cv = c := by
                        have h2 := eatValueReserved_decline c (by rw [hvr])
                        rw [hvr] at h2
                        exact h2
                      subst cv
                      have hrs2 : (eatReserved c).2 = c := rfl
                      cases hrs : (eatReserved c).1 with
                      | some tt =>
                        have hlt := Cursor.peek_lt hne
                        have hfin : (eat c).2 = (Cursor.peek c).2 := by
                          simp [eat, hw, hcm, hop, hkw, hbl, hid, hnum, hstr,
                                hvr, hrs, hrs2]
                        rw [hfin]
                        exact hlt
                      | none =>
                        have hlt := Cursor.peek_lt hne
                        have hfin : (eat c).2 = (Cursor.peek c).2 := by
                          simp [eat, hw, hcm, hop, hkw, hbl, hid, hnum, hstr,
                                hvr, hrs, hrs2]
                        rw [hfin]
                        exact hlt
            · -- the boolean recognizer consumed characters before declining:
              -- every later stage only shrinks the stream further
              rcases hid : eatIdentifier cb with ⟨oi, ci⟩
              have hile : ci.chars.length ≤ cb.chars.length := by
                have := eatIdentifier_le cb
                rw [hid] at this
                exact this
              cases oi with
              | some s =>
                have hfin : (eat c).2 = ci := by
                  simp [eat, hw, hcm, hop, hkw, hbl, hid]
                rw [hfin]
                omega
              | none =>
                have hieq : ci = cb := by
                  have h2 := eatIdentifier_decline cb (by rw [hid])
                  rw [hid] at h2
                  exact h2
                subst ci
                rcases hnum : eatNumber cb with ⟨onum, cn⟩
                have hnle : cn.chars.length ≤ cb.chars.length := by
                  have := eatNumber_le cb
                  rw [hnum] at this
                  exact this
                cases onum with
                | some nv =>
                  have hfin : (eat c).2 = cn := by
                    simp [eat, hw, hcm, hop, hkw, hbl, hid, hnum]
                  rw [hfin]
                  omega
                | none =>
                  have hneq : cn = cb := by
                    have h2 := eatNumber_decline cb (by rw [hnum])
                    rw [hnum] at h2
                    exact h2
                  subst cn
                  rcases hstr : eatString cb with ⟨os, cs⟩
                  have hsle : cs.chars.length ≤ cb.chars.length := by
                    have := eatString_le cb
                    rw [hstr] at this
                    exact this
                  cases os with
                  | panicked =>
                    exfalso
                    apply hnp
                    simp [eat, hw, hcm, hop, hkw, hbl, hid, hnum, hstr]
                  | strung v s =>
                    have hpk := Cursor.peek_le cs
                    have hfin : (eat c).2 = (Cursor.peek cs).2 := by
                      simp [eat, hw, hcm, hop, hkw, hbl, hid, hnum, hstr]
                    rw [hfin]
                    omega
                  | declined =>
                    have hseq : cs = cb := by
                      have h2 := eatString_decline cb (by rw [hstr])
                      rw [hstr] at h2
                      exact h2
                    subst cs
                    rcases hvr : eatValueReserved cb with ⟨ov, cv⟩
                    have hvle : cv.chars.length ≤ cb.chars.length := by
                      have := eatValueReserved_le cb
                      rw [hvr] at this
                      exact this
                    cases ov with
                    | some ts =>
                      have hfin : (eat c).2 = cv := by
                        simp [eat, hw, hcm, hop, hkw, hbl, hid, hnum, hstr, hvr]
                      rw [hfin]
                      omega
                    | none =>
                      have hveq : cv = cb := by
                        have h2 := eatValueReserved_decline cb (by rw [hvr])
                        rw [hvr] at h2
                        exact h2
                      subst cv
                      have hrs2 : (eatReserved cb).2 = cb := rfl
                      have hpk := Cursor.peek_le cb
                      cases hrs : (eatReserved cb).1 with
                      | some tt =>
                        have hfin : (eat c).2 = (Cursor.peek cb).2 := by
                          simp [eat, hw, hcm, hop, hkw, hbl, hid, hnum, hstr,
                                hvr, hrs, hrs2]
                        rw [hfin]
                        omega
                      | none =>
                        have hfin : (eat c).2 = (Cursor.peek cb).2 := by
                          simp [eat, hw, hcm, hop, hkw, hbl, hid, hnum, hstr,
                                hvr, hrs, hrs2]
                        rw [hfin]
                        omega


/-- At end of stream every recognizer declines and `eat` returns no token,
leaving the cursor unchanged. -/
theorem eat_at_eof {c : Cursor} (h : c.chars = []) : eat c = (.noTok, c) := by
  have h0 : c.nthCharS 0 = END_OF_FILE := by simp [Cursor.nthCharS, h]
  have hws : eatWhitespace c = (none, c) := by
    simp [eatWhitespace, Cursor.eatWhile, h, Cursor.eatWhileFuel]
  have hcm : eatComment c = (none, c) := by
    simp [eatComment, h0, show END_OF_FILE ≠ '/' by decide]
  have hop : eatOperator c = (none, c) := by
    simp [eatOperator, opChars, h0, show END_OF_FILE ≠ 'o' by decide,
      show END_OF_FILE ≠ 'a' by decide,
      show ¬(END_OF_FILE = '+' ∨ END_OF_FILE = '-' ∨ END_OF_FILE = '*' ∨
        END_OF_FILE = '/' ∨ END_OF_FILE = '%' ∨ END_OF_FILE = '=' ∨
        END_OF_FILE = '<' ∨ END_OF_FILE = '>' ∨ END_OF_FILE = '&' ∨
        END_OF_FILE = '|' ∨ END_OF_FILE = '^' ∨ END_OF_FILE = '~')
        by decide]
  have hkw : eatKeyword c = (none, c) := by
    unfold eatKeyword MAX_KEYWORD_LENGTH
    simp [eatKeywordGo, h0]
  have hbl : eatBoolean c = (none, c) := by
    have hw2 : Cursor.eatWhile Char.isAlpha c = ([], c) := by
      simp [Cursor.eatWhile, h, Cursor.eatWhileFuel]
    simp [eatBoolean, hw2, boolLoop, h0]
  have hid : eatIdentifier c = (none, c) := by
    simp [eatIdentifier, h0, show ¬(END_OF_FILE = '_' ∨
      ('a' ≤ END_OF_FILE ∧ END_OF_FILE ≤ 'z') ∨
      ('A' ≤ END_OF_FILE ∧ END_OF_FILE ≤ 'Z')) by decide]
  have hnm : eatNumber c = (none, c) := by
    simp [eatNumber, h0,
      show ¬('0' ≤ END_OF_FILE ∧ END_OF_FILE ≤ '9') by decide]
  have hst : eatString c = (.declined, c) := by
    simp [eatString, h0, show END_OF_FILE ≠ qDouble by decide,
      show END_OF_FILE ≠ qSingle by decide,
      show END_OF_FILE ≠ qBacktick by decide]
  have hvr : eatValueReserved c = (none, c) := by
    simp [eatValueReserved, h0, show END_OF_FILE ≠ ':' by decide]
  have hrs : eatReserved c = (none, c) := by
    rw [eatReserved, h0]
    rfl
  have hpk : Cursor.peek c = (none, c) := by
    simp [Cursor.peek, h]
  simp [eat, hws, hcm, hop, hkw, hbl, hid, hnm, hst, hvr, hrs, hpk]

/-- At end of stream `Lexer::next` returns `Ok(None)`. -/
theorem lexerNext_at_eof {c : Cursor} (h : c.chars = []) :
    lexerNext c = (.ok none, c) := by
  simp [lexerNext, eat_at_eof h]

/-- If the stream holds at most `n` characters and none of the first
`n + 1` calls to `Lexer::next` panics, the `(n + 1)`-st call returns
`Ok(None)`. -/
theorem runNext_reaches_none : ∀ (n : Nat) (c : Cursor),
    c.chars.length ≤ n →
    (∀ k, k ≤ n → (runNext k c).1 ≠ NextRes.panicked) →
    (runNext n c).1 = NextRes.ok none := by
  intro n
  induction n with
  | zero =>
    intro c hlen _
    have h : c.chars = [] := List.length_eq_zero.mp (Nat.le_zero.mp hlen)
    simp [runNext, lexerNext_at_eof h]
  | succ n ih =>
    intro c hlen hnp
    by_cases hemp : c.chars = []
    · have heq : (lexerNext c).2 = c := by rw [lexerNext_at_eof hemp]
      have hstep : runNext (n + 1) c = runNext n c := by
        show runNext n (lexerNext c).2 = runNext n c
        rw [heq]
      rw [hstep]
      exact ih c (by simp [hemp]) (fun k hk => hnp k (Nat.le_trans hk (Nat.le_succ n)))
    · have h0 := hnp 0 (Nat.zero_le _)
      have hep : (eat c).1 ≠ EatRes.panicked := by
        intro hq
        apply h0
        rcases he : eat c with ⟨r, c2⟩
        rw [he] at hq
        dsimp only at hq
        subst hq
        simp [runNext, lexerNext, he]
      have hlt := eat_progress hemp hep
      have h2 : (lexerNext c).2 = (eat c).2 := by
        rcases he : eat c with ⟨r, c2⟩
        cases r <;> simp [lexerNext, he]
      show (runNext n (lexerNext c).2).1 = NextRes.ok none
      apply ih
      · rw [h2]
        omega
      · intro k hk
        exact hnp (k + 1) (by omega)


/-- C10 (amended): whenever `eat` is called on a cursor that is not at end
of input and does not panic, at least one character is removed from the
remaining stream — even when no recognizer matches (the fallthrough
consumes one character defensively) — so, provided no call panics,
repeated calls to `Lexer::next` on an input of `n` characters reach
`Ok(None)` by the `(n + 1)`-st call. (The original bound of `n` calls fails
— the call that consumes the last character still returns a token — and a
panicking input such as a lone quote never reaches `Ok(None)`; see
`next_bound_cex`.) -/
theorem eat_progress_and_bound :
    (∀ c : Cursor, c.chars ≠ [] → (eat c).1 ≠ EatRes.panicked →
      (eat c).2.chars.length < c.chars.length) ∧
    (∀ (c : Cursor) (n : Nat), c.chars.length ≤ n →
      (∀ k, k ≤ n → (runNext k c).1 ≠ NextRes.panicked) →
      (runNext n c).1 = NextRes.ok none) :=
  ⟨fun _ h1 h2 => eat_progress h1 h2,
   fun c n h1 h2 => runNext_reaches_none n c h1 h2⟩

/-- Witness for `eat_progress_and_bound`: on the one-character input `"+"`
the second call to `Lexer::next` returns `Ok(None)`. -/
theorem eat_progress_and_bound_witness :
    (runNext 1 (Cursor.new ['+'])).1 = NextRes.ok none :=
  eat_progress_and_bound.2 (Cursor.new ['+']) 1 (by decide) (by decide)

end RsPhp
